import Mathlib

/-!
# Verified model of the tiered reasoning-trace cache

This file gives a shallow embedding, in Lean 4, of the reasoning cache
implemented in `sdk-python/agentcache/strategies/reasoning.py` (with
`update_outcome` as implemented in the `scripts/reasoning_cache.py` variant),
and proves the specified properties of its data model and operations.

Python floats are modelled as rationals (`ℚ`); Python dictionaries are
modelled as insertion-ordered association lists with unique keys, which is
exactly the observable behaviour of `dict`; `datetime.now()` is modelled as a
caller-supplied clock value; the SHA-256 hex digest is modelled as an
arbitrary function `sha : String → String` over which all results are proved
(properties that need facts about the real digest, such as non-emptiness or
hexness of its output, take them as explicit hypotheses).
-/

/-! ## Character and string primitives

Python compares strings lexicographically by code point (`json.dumps`'s
`sort_keys=True` relies on this), lower/uppercases them, strips whitespace,
and splits on whitespace runs. We model these operations directly on the
character data of Lean strings.
-/

/-- Lexicographic strict order on character lists, by code point; this is
Python's `<` on strings. -/
def lexLt : List Char → List Char → Bool
  | [], [] => false
  | [], _ :: _ => true
  | _ :: _, [] => false
  | a :: as, b :: bs =>
    if a < b then true
    else if b < a then false
    else lexLt as bs

/-- Python's `<` on strings. -/
def strLtB (a b : String) : Bool := lexLt a.data b.data

theorem lexLt_irrefl : ∀ l : List Char, lexLt l l = false := by
  intro l
  induction l with
  | nil => rfl
  | cons a as ih => simp [lexLt, ih]

theorem lexLt_asymm : ∀ l₁ l₂ : List Char, lexLt l₁ l₂ = true → lexLt l₂ l₁ = false := by
  intro l₁
  induction l₁ with
  | nil =>
    intro l₂ h
    cases l₂ with
    | nil => simp [lexLt] at h
    | cons b bs => simp [lexLt]
  | cons a as ih =>
    intro l₂ h
    cases l₂ with
    | nil => simp [lexLt] at h
    | cons b bs =>
      by_cases hab : a < b
      · simp [lexLt, hab, asymm hab, (asymm hab : ¬ b < a)]
      · by_cases hba : b < a
        · simp [lexLt, hab, hba] at h
        · simp only [lexLt, if_neg hab, if_neg hba] at h
          simp [lexLt, hab, hba, ih bs h]

theorem lexLt_trans : ∀ l₁ l₂ l₃ : List Char,
    lexLt l₁ l₂ = true → lexLt l₂ l₃ = true → lexLt l₁ l₃ = true := by
  intro l₁
  induction l₁ with
  | nil =>
    intro l₂ l₃ h₁ h₂
    cases l₂ with
    | nil => simp [lexLt] at h₁
    | cons b bs =>
      cases l₃ with
      | nil => simp [lexLt] at h₂
      | cons c cs => simp [lexLt]
  | cons a as ih =>
    intro l₂ l₃ h₁ h₂
    cases l₂ with
    | nil => simp [lexLt] at h₁
    | cons b bs =>
      cases l₃ with
      | nil => simp [lexLt] at h₂
      | cons c cs =>
        rcases lt_trichotomy a b with hab | hab | hab
        · rcases lt_trichotomy b c with hbc | hbc | hbc
          · simp [lexLt, lt_trans hab hbc]
          · subst hbc
            simp [lexLt, hab]
          · simp [lexLt, asymm hbc, hbc] at h₂
        · subst hab
          simp only [lexLt, lt_irrefl, if_neg (lt_irrefl a)] at h₁
          rcases lt_trichotomy a c with hac | hac | hac
          · simp [lexLt, hac]
          · subst hac
            simp only [lexLt, lt_irrefl, if_neg (lt_irrefl a)] at h₂
            simp only [lexLt, lt_irrefl, if_neg (lt_irrefl a)]
            exact ih bs cs h₁ h₂
          · simp [lexLt, asymm hac, hac] at h₂
        · simp [lexLt, asymm hab, hab] at h₁

theorem lexLt_eq_of_both_false : ∀ l₁ l₂ : List Char,
    lexLt l₁ l₂ = false → lexLt l₂ l₁ = false → l₁ = l₂ := by
  intro l₁
  induction l₁ with
  | nil =>
    intro l₂ h₁ _
    cases l₂ with
    | nil => rfl
    | cons b bs => simp [lexLt] at h₁
  | cons a as ih =>
    intro l₂ h₁ h₂
    cases l₂ with
    | nil => simp [lexLt] at h₂
    | cons b bs =>
      by_cases hab : a < b
      · simp [lexLt, hab] at h₁
      · by_cases hba : b < a
        · simp [lexLt, hba, hab] at h₂
        · have hEq : a = b := le_antisymm (not_lt.mp hba) (not_lt.mp hab)
          subst hEq
          simp only [lexLt, if_neg hab, if_neg hba] at h₁ h₂
          rw [ih bs h₁ h₂]

theorem strLtB_asymm (a b : String) (h : strLtB a b = true) : strLtB b a = false :=
  lexLt_asymm _ _ h

theorem strLtB_trans (a b c : String) (h₁ : strLtB a b = true) (h₂ : strLtB b c = true) :
    strLtB a c = true :=
  lexLt_trans _ _ _ h₁ h₂

theorem strLtB_eq_of_both_false (a b : String) (h₁ : strLtB a b = false)
    (h₂ : strLtB b a = false) : a = b := by
  cases a with
  | mk da =>
    cases b with
    | mk db =>
      have : da = db := lexLt_eq_of_both_false _ _ h₁ h₂
      rw [this]

/-- Python's `str.lower()` on a character (ASCII range, which is all the
tokenizer's inputs use it for). -/
def pyLowerChar (c : Char) : Char :=
  if 65 ≤ c.toNat && c.toNat ≤ 90 then Char.ofNat (c.toNat + 32) else c

/-- Python's `str.upper()` on a character (ASCII range). -/
def pyUpperChar (c : Char) : Char :=
  if 97 ≤ c.toNat && c.toNat ≤ 122 then Char.ofNat (c.toNat - 32) else c

/-- The characters Python's `str.split()` / `str.strip()` treat as whitespace. -/
def pySpace (c : Char) : Bool :=
  c = ' ' || c = '\t' || c = '\n' || c = '\x0d' || c = '\x0b' || c = '\x0c'

/-- Python's `str.lower()`. -/
def pyLower (s : String) : String := String.mk (s.data.map pyLowerChar)

/-- Python's `str.upper()`. -/
def pyUpper (s : String) : String := String.mk (s.data.map pyUpperChar)

/-- Python's `str.strip()`: drop leading and trailing whitespace. -/
def pyStrip (s : String) : String :=
  String.mk (((s.data.dropWhile pySpace).reverse.dropWhile pySpace).reverse)

/-- Split a character list on whitespace runs, dropping empty pieces: the
behaviour of Python's `str.split()` with no arguments. -/
def pySplitGo : List Char → List Char → List String
  | acc, [] => if acc.isEmpty then [] else [String.mk acc.reverse]
  | acc, c :: cs =>
    if pySpace c then
      if acc.isEmpty then pySplitGo [] cs
      else String.mk acc.reverse :: pySplitGo [] cs
    else pySplitGo (c :: acc) cs

/-- Python's `str.split()` with no arguments. -/
def pySplit (s : String) : List String := pySplitGo [] s.data

/-- `startsWithSeq pat l` is true when `pat` is an initial segment of `l`. -/
def startsWithSeq : List Char → List Char → Bool
  | [], _ => true
  | _ :: _, [] => false
  | p :: ps, c :: cs => p == c && startsWithSeq ps cs

/-- `containsSeq pat l` is true when `pat` occurs contiguously inside `l`:
Python's `pat in s` for strings. -/
def containsSeq (pat : List Char) : List Char → Bool
  | [] => startsWithSeq pat []
  | c :: cs => startsWithSeq pat (c :: cs) || containsSeq pat cs

/-! ## Exact rational arithmetic

`Rat.mul` and `Rat.div` are `@[irreducible]` in this toolchain, which blocks
kernel evaluation of concrete instances.  The embedding therefore computes
products and quotients through `Rat.divInt`, and the two lemmas below certify
that these are exactly rational `*` and `/`. -/

/-- Exact rational multiplication (equal to `a * b`, see `ratMul_eq`). -/
def ratMul (a b : ℚ) : ℚ := Rat.divInt (a.num * b.num) ((a.den : Int) * (b.den : Int))

theorem ratMul_eq (a b : ℚ) : ratMul a b = a * b := by
  rw [ratMul, ← Rat.divInt_mul_divInt', Rat.num_divInt_den, Rat.num_divInt_den]

/-- Exact rational division (equal to `a / b`, see `ratDiv_eq`). -/
def ratDiv (a b : ℚ) : ℚ := Rat.divInt (a.num * (b.den : Int)) ((a.den : Int) * b.num)

theorem ratDiv_eq (a b : ℚ) : ratDiv a b = a / b := by
  rw [ratDiv, ← Rat.div_def']

/-! ## JSON values and `json.dumps`

A reasoning context is a Python `Dict[str, Any]` of JSON-serializable values.
`_compute_context_hash` and the similarity search both serialize contexts
with `json.dumps(context, sort_keys=True, default=str)`; we model that as a
plain serializer applied to a recursively key-sorted copy of the value. -/

inductive Jval where
  | jnull
  | jbool (b : Bool)
  | jint (n : Int)
  | jstr (s : String)
  | jarr (xs : List Jval)
  | jobj (kvs : List (String × Jval))

/-- A reasoning context: a Python dict from string keys to JSON values, in
insertion order. -/
def Context := List (String × Jval)

/-- JSON string quoting (the contexts exercised here need no escapes). -/
def quoteStr (s : String) : String := "\"" ++ s ++ "\""

mutual
/-- `json.dumps` with its default separators `", "` and `": "`. -/
def dumpVal : Jval → String
  | .jnull => "null"
  | .jbool true => "true"
  | .jbool false => "false"
  | .jint n => toString n
  | .jstr s => quoteStr s
  | .jarr xs => "[" ++ dumpMany xs ++ "]"
  | .jobj kvs => "\x7b" ++ dumpMembers kvs ++ "\x7d"

def dumpMany : List Jval → String
  | [] => ""
  | [v] => dumpVal v
  | v :: w :: tl => dumpVal v ++ ", " ++ dumpMany (w :: tl)

def dumpMembers : List (String × Jval) → String
  | [] => ""
  | [(k, v)] => quoteStr k ++ ": " ++ dumpVal v
  | (k, v) :: p :: tl => quoteStr k ++ ": " ++ dumpVal v ++ ", " ++ dumpMembers (p :: tl)
end

/-- Key order used by `sort_keys=True`: `p` before `q` when `q`'s key is not
strictly below `p`'s (Python sorts keys with string `<`). -/
def keyLe (p q : String × Jval) : Prop := strLtB q.1 p.1 = false

instance : DecidableRel keyLe := fun _ q => inferInstanceAs (Decidable (strLtB q.1 _ = false))

instance : IsTotal (String × Jval) keyLe := by
  constructor
  intro p q
  by_cases h : strLtB q.1 p.1 = false
  · exact Or.inl h
  · right
    exact strLtB_asymm _ _ (Bool.of_not_eq_false h)

instance : IsTrans (String × Jval) keyLe := by
  constructor
  intro p q r h₁ h₂
  by_cases hrp : strLtB r.1 p.1 = false
  · exact hrp
  · exfalso
    have hrp' : strLtB r.1 p.1 = true := Bool.of_not_eq_false hrp
    by_cases hpq : strLtB p.1 q.1 = true
    · exact absurd (strLtB_trans _ _ _ hrp' hpq) (fun h => by rw [h₂] at h; cases h)
    · have : p.1 = q.1 := strLtB_eq_of_both_false _ _ (Bool.of_not_eq_true hpq) h₁
      rw [this] at hrp'
      simp only [keyLe] at h₂
      rw [h₂] at hrp'
      cases hrp'

mutual
/-- Recursively sort every object's members by key: the ordering effect of
`json.dumps(..., sort_keys=True)`. -/
def canonV : Jval → Jval
  | .jnull => .jnull
  | .jbool b => .jbool b
  | .jint n => .jint n
  | .jstr s => .jstr s
  | .jarr xs => .jarr (canonMany xs)
  | .jobj kvs => .jobj (canonMembers kvs)

def canonMany : List Jval → List Jval
  | [] => []
  | v :: tl => canonV v :: canonMany tl

def canonMembers : List (String × Jval) → List (String × Jval)
  | [] => []
  | (k, v) :: tl => List.orderedInsert keyLe (k, canonV v) (canonMembers tl)
end

/-- `json.dumps(context, sort_keys=True, default=str)` for a context. -/
def dumpsSorted (ctx : Context) : String := dumpVal (canonV (Jval.jobj ctx))

theorem canonMembers_eq_insertionSort (kvs : List (String × Jval)) :
    canonMembers kvs =
      List.insertionSort keyLe (kvs.map fun p => (p.1, canonV p.2)) := by
  induction kvs with
  | nil => rfl
  | cons p tl ih =>
    cases p with
    | mk k v => simp [canonMembers, List.insertionSort, ih]

/-- The strict key order underlying `keyLe`. -/
def keyLt (p q : String × Jval) : Prop := strLtB p.1 q.1 = true

instance : IsAntisymm (String × Jval) keyLt := by
  constructor
  intro a b h₁ h₂
  have := strLtB_asymm _ _ h₁
  rw [h₂] at this
  cases this

theorem sorted_keyLt_of_sorted_keyLe (l : List (String × Jval))
    (hs : List.Sorted keyLe l) (hnd : (l.map Prod.fst).Nodup) :
    List.Sorted keyLt l := by
  have hne : l.Pairwise (fun p q => p.1 ≠ q.1) := List.pairwise_map.mp hnd
  refine List.Pairwise.imp ?_ (List.Pairwise.and hs hne)
  intro p q h
  obtain ⟨hle, hnepq⟩ := h
  by_cases hlt : strLtB p.1 q.1 = true
  · exact hlt
  · exact absurd (strLtB_eq_of_both_false _ _ (Bool.of_not_eq_true hlt) hle) hnepq

theorem canonMembers_perm_invariant (l₁ l₂ : List (String × Jval))
    (hperm : List.Perm l₁ l₂) (hnd : (l₁.map Prod.fst).Nodup) :
    canonMembers l₁ = canonMembers l₂ := by
  rw [canonMembers_eq_insertionSort, canonMembers_eq_insertionSort]
  have hfst : ∀ l : List (String × Jval),
      ((l.map fun p => (p.1, canonV p.2)).map Prod.fst) = l.map Prod.fst := by
    intro l
    rw [List.map_map]
    rfl
  have hmp : List.Perm (l₁.map fun p => (p.1, canonV p.2)) (l₂.map fun p => (p.1, canonV p.2)) :=
    hperm.map _
  have hp₁ : List.Perm (List.insertionSort keyLe (l₁.map fun p => (p.1, canonV p.2)))
      (l₁.map fun p => (p.1, canonV p.2)) := List.perm_insertionSort keyLe _
  have hp₂ : List.Perm (List.insertionSort keyLe (l₂.map fun p => (p.1, canonV p.2)))
      (l₂.map fun p => (p.1, canonV p.2)) := List.perm_insertionSort keyLe _
  have hnd₁ : ((List.insertionSort keyLe (l₁.map fun p => (p.1, canonV p.2))).map Prod.fst).Nodup := by
    refine (List.Perm.nodup_iff (List.Perm.map Prod.fst hp₁)).mpr ?_
    rw [hfst]
    exact hnd
  have hndl₂ : (l₂.map Prod.fst).Nodup := (List.Perm.nodup_iff (hperm.map Prod.fst)).mp hnd
  have hnd₂ : ((List.insertionSort keyLe (l₂.map fun p => (p.1, canonV p.2))).map Prod.fst).Nodup := by
    refine (List.Perm.nodup_iff (List.Perm.map Prod.fst hp₂)).mpr ?_
    rw [hfst]
    exact hndl₂
  refine List.eq_of_perm_of_sorted (r := keyLt) (hp₁.trans (hmp.trans hp₂.symm)) ?_ ?_
  · exact sorted_keyLt_of_sorted_keyLe _ (List.sorted_insertionSort keyLe _) hnd₁
  · exact sorted_keyLt_of_sorted_keyLe _ (List.sorted_insertionSort keyLe _) hnd₂

theorem dumpsSorted_perm_invariant (ctx₁ ctx₂ : Context)
    (hperm : List.Perm ctx₁ ctx₂) (hnd : (ctx₁.map Prod.fst).Nodup) :
    dumpsSorted ctx₁ = dumpsSorted ctx₂ := by
  show dumpVal (canonV (Jval.jobj ctx₁)) = dumpVal (canonV (Jval.jobj ctx₂))
  rw [show canonV (Jval.jobj ctx₁) = Jval.jobj (canonMembers ctx₁) from rfl,
    show canonV (Jval.jobj ctx₂) = Jval.jobj (canonMembers ctx₂) from rfl,
    canonMembers_perm_invariant _ _ hperm hnd]


/-! ## Association lists modelling Python dicts

A Python `dict` is observably an insertion-ordered map with unique keys:
`d[k] = v` on a present key overwrites in place, on a fresh key appends;
`d.pop(k)` removes; iteration follows insertion order. -/

/-- `k in d` / `d[k]` lookup. -/
def alookup {α : Type} : List (String × α) → String → Option α
  | [], _ => none
  | (k', v) :: tl, k => if k' = k then some v else alookup tl k

/-- `d[k] = v`: overwrite in place, else append. -/
def ainsert {α : Type} : List (String × α) → String → α → List (String × α)
  | [], k, v => [(k, v)]
  | (k', v') :: tl, k, v => if k' = k then (k, v) :: tl else (k', v') :: ainsert tl k v

/-- `d.pop(k)` (ignoring the returned value). -/
def aremove {α : Type} : List (String × α) → String → List (String × α)
  | [], _ => []
  | (k', v') :: tl, k => if k' = k then tl else (k', v') :: aremove tl k

/-- `list(d.keys())`. -/
def akeys {α : Type} (l : List (String × α)) : List String := l.map Prod.fst

theorem akeys_nil {α : Type} : akeys ([] : List (String × α)) = [] := rfl

theorem akeys_cons {α : Type} (k : String) (v : α) (tl : List (String × α)) :
    akeys ((k, v) :: tl) = k :: akeys tl := rfl

theorem alookup_eq_none_iff {α : Type} (l : List (String × α)) (k : String) :
    alookup l k = none ↔ k ∉ akeys l := by
  induction l with
  | nil => simp [alookup, akeys]
  | cons p tl ih =>
    obtain ⟨k', v⟩ := p
    rw [akeys_cons]
    by_cases h : k' = k
    · subst h
      simp [alookup]
    · have h' : k ≠ k' := fun hh => h hh.symm
      simp only [alookup, if_neg h, List.mem_cons]
      rw [ih]
      constructor
      · intro hnm hor
        rcases hor with hor | hor
        · exact h' hor
        · exact hnm hor
      · intro hnm hmem
        exact hnm (Or.inr hmem)

theorem alookup_isSome_iff {α : Type} (l : List (String × α)) (k : String) :
    (alookup l k).isSome = true ↔ k ∈ akeys l := by
  rw [← Decidable.not_not (p := k ∈ akeys l), ← alookup_eq_none_iff]
  cases alookup l k <;> simp

theorem alookup_ainsert_self {α : Type} (l : List (String × α)) (k : String) (v : α) :
    alookup (ainsert l k v) k = some v := by
  induction l with
  | nil => simp [ainsert, alookup]
  | cons p tl ih =>
    obtain ⟨k', v'⟩ := p
    by_cases h : k' = k
    · simp [ainsert, alookup, h]
    · simp [ainsert, alookup, h, ih]

theorem alookup_ainsert_ne {α : Type} (l : List (String × α)) (k k' : String) (v : α)
    (h : k' ≠ k) : alookup (ainsert l k v) k' = alookup l k' := by
  have h' : ¬ k = k' := fun hh => h hh.symm
  induction l with
  | nil => simp [ainsert, alookup, h']
  | cons p tl ih =>
    obtain ⟨k₀, v₀⟩ := p
    by_cases h₀ : k₀ = k
    · subst h₀
      simp [ainsert, alookup, h']
    · by_cases h₁ : k₀ = k'
      · subst h₁
        simp [ainsert, alookup, h₀]
      · simp [ainsert, alookup, h₀, h₁, ih]

theorem mem_akeys_ainsert {α : Type} (l : List (String × α)) (k k' : String) (v : α) :
    k' ∈ akeys (ainsert l k v) ↔ k' ∈ akeys l ∨ k' = k := by
  induction l with
  | nil => simp [ainsert, akeys]
  | cons p tl ih =>
    obtain ⟨k₀, v₀⟩ := p
    by_cases h₀ : k₀ = k
    · subst h₀
      simp only [ainsert, if_pos rfl, ite_true, akeys_cons, List.mem_cons]
      tauto
    · simp only [ainsert, if_neg h₀, akeys_cons, List.mem_cons, ih]
      tauto

theorem length_ainsert_mem {α : Type} (l : List (String × α)) (k : String) (v : α)
    (h : k ∈ akeys l) : (ainsert l k v).length = l.length := by
  induction l with
  | nil => simp [akeys] at h
  | cons p tl ih =>
    obtain ⟨k₀, v₀⟩ := p
    by_cases h₀ : k₀ = k
    · simp [ainsert, h₀]
    · rw [akeys_cons, List.mem_cons] at h
      rcases h with h | h
      · exact absurd h.symm h₀
      · simp [ainsert, h₀, ih h]

theorem length_ainsert_not_mem {α : Type} (l : List (String × α)) (k : String) (v : α)
    (h : k ∉ akeys l) : (ainsert l k v).length = l.length + 1 := by
  induction l with
  | nil => simp [ainsert]
  | cons p tl ih =>
    obtain ⟨k₀, v₀⟩ := p
    rw [akeys_cons, List.mem_cons] at h
    push_neg at h
    have h₀ : ¬ k₀ = k := fun hh => h.1 hh.symm
    simp [ainsert, h₀, ih h.2]

theorem length_aremove_mem {α : Type} (l : List (String × α)) (k : String)
    (h : k ∈ akeys l) : (aremove l k).length + 1 = l.length := by
  induction l with
  | nil => simp [akeys] at h
  | cons p tl ih =>
    obtain ⟨k₀, v₀⟩ := p
    by_cases h₀ : k₀ = k
    · simp [aremove, h₀]
    · rw [akeys_cons, List.mem_cons] at h
      rcases h with h | h
      · exact absurd h.symm h₀
      · simp [aremove, h₀, ih h]

theorem mem_akeys_aremove {α : Type} (l : List (String × α)) (k k' : String)
    (h : k' ∈ akeys (aremove l k)) : k' ∈ akeys l := by
  induction l with
  | nil => simpa [aremove] using h
  | cons p tl ih =>
    obtain ⟨k₀, v₀⟩ := p
    by_cases h₀ : k₀ = k
    · rw [show aremove ((k₀, v₀) :: tl) k = tl from by simp [aremove, h₀]] at h
      rw [akeys_cons, List.mem_cons]
      exact Or.inr h
    · rw [show aremove ((k₀, v₀) :: tl) k = (k₀, v₀) :: aremove tl k from by simp [aremove, h₀],
        akeys_cons, List.mem_cons] at h
      rw [akeys_cons, List.mem_cons]
      rcases h with h | h
      · exact Or.inl h
      · exact Or.inr (ih h)

theorem nodup_akeys_ainsert {α : Type} (l : List (String × α)) (k : String) (v : α)
    (h : (akeys l).Nodup) : (akeys (ainsert l k v)).Nodup := by
  induction l with
  | nil => simp [ainsert, akeys]
  | cons p tl ih =>
    obtain ⟨k₀, v₀⟩ := p
    rw [akeys_cons, List.nodup_cons] at h
    by_cases h₀ : k₀ = k
    · subst h₀
      simp only [ainsert, if_pos rfl, ite_true, akeys_cons, List.nodup_cons]
      exact h
    · simp only [ainsert, if_neg h₀, akeys_cons, List.nodup_cons]
      refine ⟨?_, ih h.2⟩
      intro hmem
      rcases (mem_akeys_ainsert tl k k₀ v).mp hmem with hh | hh
      · exact h.1 hh
      · exact h₀ hh

theorem nodup_akeys_aremove {α : Type} (l : List (String × α)) (k : String)
    (h : (akeys l).Nodup) : (akeys (aremove l k)).Nodup := by
  induction l with
  | nil => simp [aremove, akeys]
  | cons p tl ih =>
    obtain ⟨k₀, v₀⟩ := p
    rw [akeys_cons, List.nodup_cons] at h
    by_cases h₀ : k₀ = k
    · rw [show aremove ((k₀, v₀) :: tl) k = tl from by simp [aremove, h₀]]
      exact h.2
    · rw [show aremove ((k₀, v₀) :: tl) k = (k₀, v₀) :: aremove tl k from by simp [aremove, h₀],
        akeys_cons, List.nodup_cons]
      exact ⟨fun hmem => h.1 (mem_akeys_aremove tl k k₀ hmem), ih h.2⟩

theorem alookup_aremove_self {α : Type} (l : List (String × α)) (k : String)
    (h : (akeys l).Nodup) : alookup (aremove l k) k = none := by
  induction l with
  | nil => simp [aremove, alookup]
  | cons p tl ih =>
    obtain ⟨k₀, v₀⟩ := p
    rw [akeys_cons, List.nodup_cons] at h
    by_cases h₀ : k₀ = k
    · subst h₀
      rw [show aremove ((k₀, v₀) :: tl) k₀ = tl from by simp [aremove]]
      exact (alookup_eq_none_iff tl k₀).mpr h.1
    · rw [show aremove ((k₀, v₀) :: tl) k = (k₀, v₀) :: aremove tl k from by simp [aremove, h₀]]
      simp only [alookup, if_neg h₀]
      exact ih h.2

theorem alookup_aremove_ne {α : Type} (l : List (String × α)) (k k' : String)
    (h : k' ≠ k) : alookup (aremove l k) k' = alookup l k' := by
  induction l with
  | nil => simp [aremove]
  | cons p tl ih =>
    obtain ⟨k₀, v₀⟩ := p
    by_cases h₀ : k₀ = k
    · subst h₀
      rw [show aremove ((k₀, v₀) :: tl) k₀ = tl from by simp [aremove]]
      have h₁ : ¬ k₀ = k' := fun hh => h (hh.symm)
      simp [alookup, h₁]
    · rw [show aremove ((k₀, v₀) :: tl) k = (k₀, v₀) :: aremove tl k from by simp [aremove, h₀]]
      by_cases h₁ : k₀ = k'
      · simp [alookup, h₁]
      · simp [alookup, h₁, ih]

theorem alookup_mem {α : Type} (l : List (String × α)) (k : String) (v : α)
    (h : alookup l k = some v) : (k, v) ∈ l := by
  induction l with
  | nil => simp [alookup] at h
  | cons p tl ih =>
    obtain ⟨k₀, v₀⟩ := p
    by_cases h₀ : k₀ = k
    · subst h₀
      rw [show alookup ((k₀, v₀) :: tl) k₀ = some v₀ from by simp [alookup]] at h
      rw [List.mem_cons]
      left
      rw [(Option.some.injEq _ _).mp h]
    · simp only [alookup, if_neg h₀] at h
      exact List.mem_cons_of_mem _ (ih h)

/-! ## Data model

`ReasoningState` and `ReasoningPattern` as in `reasoning.py`; `timestamp` is
the `datetime.now()` value at creation, supplied by the caller's clock. -/

structure ReasoningState where
  context_hash : String
  context_data : Context
  reasoning_trace : List String
  intermediate_values : Context
  confidence : ℚ
  timestamp : Nat
  success_count : Nat
  failure_count : Nat

/-- `success_count / total` when any outcome was observed, `0.5` otherwise. -/
def ReasoningState.get_success_rate (s : ReasoningState) : ℚ :=
  let total := s.success_count + s.failure_count
  if 0 < total then Rat.divInt (s.success_count : Int) (total : Int) else Rat.divInt 1 2

theorem get_success_rate_eq (s : ReasoningState) :
    s.get_success_rate =
      if 0 < s.success_count + s.failure_count then
        (s.success_count : ℚ) / ((s.success_count + s.failure_count : Nat) : ℚ)
      else (1 : ℚ) / 2 := by
  rw [ReasoningState.get_success_rate]
  by_cases h : 0 < s.success_count + s.failure_count
  · rw [if_pos h, if_pos h, Rat.divInt_eq_div]
    push_cast
    rfl
  · rw [if_neg h, if_neg h, Rat.divInt_eq_div]
    push_cast
    rfl

structure ReasoningPattern where
  pattern_id : String
  pattern_type : String
  preconditions : List String
  steps : List String
  success_contexts : List String
  avg_success_rate : ℚ
  uses : Nat

/-- The cache: two state tiers, a pattern store, gating parameters and
statistics, exactly the constructor's fields. -/
structure ReasoningCache where
  working_memory : List (String × ReasoningState)
  wm_capacity : Nat
  episodic_memory : List (String × ReasoningState)
  procedural_memory : List (String × ReasoningPattern)
  cache_threshold : ℚ
  decay_rate : ℚ
  verification_model : String
  cache_hits : Nat
  cache_misses : Nat
  reasoning_steps_saved : Nat

/-- `ReasoningCache.__init__` (the Python defaults are `7`, `0.6`, `0.95`,
`"gpt-4o-mini"`). -/
def ReasoningCache.init (working_memory_capacity : Nat) (cache_threshold : ℚ)
    (decay_rate : ℚ) (verification_model : String) : ReasoningCache where
  working_memory := []
  wm_capacity := working_memory_capacity
  episodic_memory := []
  procedural_memory := []
  cache_threshold := cache_threshold
  decay_rate := decay_rate
  verification_model := verification_model
  cache_hits := 0
  cache_misses := 0
  reasoning_steps_saved := 0

/-- A cache built with all-default constructor arguments
(`0.6 = divInt 6 10`, `0.95 = divInt 19 20`). -/
def defaultCache : ReasoningCache :=
  ReasoningCache.init 7 (Rat.divInt 6 10) (Rat.divInt 19 20) "gpt-4o-mini"

/-- `_compute_context_hash`: the first 16 characters of the hex digest of the
canonical (key-sorted) JSON serialization.  `sha` stands for
`hashlib.sha256(·).hexdigest()`. -/
def compute_context_hash (sha : String → String) (context : Context) : String :=
  String.mk ((sha (dumpsSorted context)).data.take 16)

/-! ## The Critic (verification hook)

`verify_match` builds a fixed prompt from the two contexts and calls the
caller-supplied completion function.  Its observable behaviour is therefore a
function of the two contexts, with three possible shapes: it raised, it
returned something without a usable `choices[0]["message"]["content"]`, or it
returned that content string. -/

inductive CriticResponse where
  | raisedExn
  | malformed
  | content (s : String)

/-- The caller-supplied completion function, abstracted by its observable
behaviour on the (new, cached) context pair. -/
def Critic := Context → Context → CriticResponse

/-- `verify_match`: `True` with no completion function; otherwise parse the
response, answering whether `"YES"` occurs in the stripped upper-cased
content; any exception or unexpected shape yields `False`. -/
def verify_match (completion_fn : Option Critic) (new_context cached_context : Context) :
    Bool :=
  match completion_fn with
  | none => true
  | some f =>
    match f new_context cached_context with
    | .raisedExn => false
    | .malformed => false
    | .content s => containsSeq "YES".data (pyUpper (pyStrip s)).data

/-! ## Similarity scorer -/

/-- `_similarity_score`'s tokenizer: lower-case, replace `"`, `:`, braces by
spaces, split on whitespace. -/
def simTokens (text : String) : List String :=
  pySplit (String.mk (text.data.map (fun c =>
    let lc := pyLowerChar c
    if lc = '"' || lc = ':' || lc = '\x7b' || lc = '\x7d' then ' ' else lc)))

/-- `_similarity_score`: word-token Jaccard similarity. -/
def similarity_score (ctx₁ ctx₂ : String) : ℚ :=
  let set₁ := (simTokens ctx₁).dedup
  let set₂ := (simTokens ctx₂).dedup
  let inter := (set₁.filter (fun t => set₂.contains t)).length
  let union := (set₁ ++ set₂).dedup.length
  if 0 < union then Rat.divInt (inter : Int) (union : Int) else 0

/-! ## Gate -/

/-- `s.confidence * s.get_success_rate()`, the displacement value. -/
def stateValue (s : ReasoningState) : ℚ := ratMul s.confidence s.get_success_rate

/-- The least-valuable-resident scan in `gate_update`: `min_key`/`min_val`
start at `None`/`float('inf')` and each strictly smaller value takes over. -/
def wmMinGo : (Option String × Option ℚ) → List (String × ReasoningState) →
    Option String × Option ℚ
  | acc, [] => acc
  | acc, (k, s) :: tl =>
    wmMinGo
      (match acc.2 with
       | none => (some k, some (stateValue s))
       | some m => if stateValue s < m then (some k, some (stateValue s)) else acc) tl

/-- `_evict_to_episodic`: move an entry from working to episodic memory. -/
def ReasoningCache.evict_to_episodic (c : ReasoningCache) (context_hash : String) :
    ReasoningCache :=
  match alookup c.working_memory context_hash with
  | some state =>
    { c with
      working_memory := aremove c.working_memory context_hash
      episodic_memory := ainsert c.episodic_memory context_hash state }
  | none => c

/-- `gate_update`: decide whether the new state may enter working memory,
evicting the least valuable resident when displacing.  (The `context_hash`
parameter is unused, as in the source.)  `if min_key:` is Python truthiness:
`None` and `""` both skip the eviction. -/
def ReasoningCache.gate_update (c : ReasoningCache) (_context_hash : String)
    (new_state : ReasoningState) : Bool × ReasoningCache :=
  if new_state.confidence < c.cache_threshold then (false, c)
  else if c.wm_capacity ≤ c.working_memory.length then
    let acc := wmMinGo (none, none) c.working_memory
    let new_value := ratMul new_state.confidence new_state.get_success_rate
    if (match acc.2 with
        | none => true
        | some min_val => new_value ≤ min_val) then (false, c)
    else
      match acc.1 with
      | some min_key =>
        if min_key = "" then (true, c) else (true, c.evict_to_episodic min_key)
      | none => (true, c)
  else (true, c)

/-! ## Cache facade -/

/-- `cache_reasoning`: hash, build the state (fresh counters), gate, and
store in the admitted tier. -/
def ReasoningCache.cache_reasoning (sha : String → String) (c : ReasoningCache)
    (context : Context) (reasoning_trace : List String)
    (intermediate_values : Context) (confidence : ℚ) (now : Nat) :
    String × ReasoningCache :=
  let context_hash := compute_context_hash sha context
  let state : ReasoningState :=
    { context_hash := context_hash
      context_data := context
      reasoning_trace := reasoning_trace
      intermediate_values := intermediate_values
      confidence := confidence
      timestamp := now
      success_count := 0
      failure_count := 0 }
  let r := c.gate_update context_hash state
  if r.1 then
    (context_hash, { r.2 with working_memory := ainsert r.2.working_memory context_hash state })
  else
    (context_hash, { r.2 with episodic_memory := ainsert r.2.episodic_memory context_hash state })

/-- Which control path a retrieval took (instrumentation of the embedding;
not a field of the Python object). -/
inductive RetrievePath where
  | wmExact
  | emExact
  | simHit
  | simRejected
  | noMatch
deriving DecidableEq

/-- Result of `retrieve_reasoning`: the returned state, the updated cache,
whether the Critic was invoked, and the control path taken. -/
structure RetrieveOut where
  result : Option ReasoningState
  cache : ReasoningCache
  criticInvoked : Bool
  path : RetrievePath

/-- The similarity-search loop of `retrieve_reasoning` over one tier:
track the best candidate whose score beats the running best and meets the
threshold. -/
def simGo (context_str : String) (similarity_threshold : ℚ) :
    (Option ReasoningState × ℚ) → List (String × ReasoningState) →
    Option ReasoningState × ℚ
  | acc, [] => acc
  | acc, (_, state) :: tl =>
    let score := similarity_score context_str (dumpsSorted state.context_data)
    simGo context_str similarity_threshold
      (if acc.2 < score ∧ similarity_threshold ≤ score then (some state, score) else acc) tl

/-- The whole similarity search of `retrieve_reasoning`: scan working
memory; only if nothing there cleared the threshold, continue over episodic
memory (the running best score carries over, as in the source). -/
def bestSimMatch (c : ReasoningCache) (context_str : String) (similarity_threshold : ℚ) :
    Option ReasoningState × ℚ :=
  let acc₁ := simGo context_str similarity_threshold (none, 0) c.working_memory
  match acc₁.1 with
  | none => simGo context_str similarity_threshold acc₁ c.episodic_memory
  | some _ => acc₁

/-- `retrieve_reasoning`: exact hash in working memory, else exact hash in
episodic memory (with conditional promotion), else similarity search over
working then episodic memory, with Critic verification of a similarity
match; misses are counted only on the final fall-through. -/
def ReasoningCache.retrieve_reasoning (sha : String → String) (c : ReasoningCache)
    (context : Context) (similarity_threshold : ℚ) (completion_fn : Option Critic) :
    RetrieveOut :=
  let context_hash := compute_context_hash sha context
  match alookup c.working_memory context_hash with
  | some state =>
    { result := some state
      cache :=
        { c with
          cache_hits := c.cache_hits + 1
          reasoning_steps_saved := c.reasoning_steps_saved + state.reasoning_trace.length }
      criticInvoked := false
      path := .wmExact }
  | none =>
    match alookup c.episodic_memory context_hash with
    | some state =>
      let c₁ := { c with cache_hits := c.cache_hits + 1 }
      let c₂ :=
        if Rat.divInt 7 10 < state.get_success_rate then
          let r := c₁.gate_update context_hash state
          if r.1 then
            { r.2 with
              working_memory := ainsert r.2.working_memory context_hash state
              episodic_memory := aremove r.2.episodic_memory context_hash }
          else r.2
        else c₁
      { result := some state
        cache :=
          { c₂ with
            reasoning_steps_saved := c₂.reasoning_steps_saved + state.reasoning_trace.length }
        criticInvoked := false
        path := .emExact }
    | none =>
      let context_str := dumpsSorted context
      let acc₂ := bestSimMatch c context_str similarity_threshold
      match acc₂.1 with
      | some best_match =>
        match completion_fn with
        | some f =>
          if verify_match (some f) context best_match.context_data then
            { result := some best_match
              cache :=
                { c with
                  cache_hits := c.cache_hits + 1
                  reasoning_steps_saved :=
                    c.reasoning_steps_saved + best_match.reasoning_trace.length }
              criticInvoked := true
              path := .simHit }
          else
            { result := none, cache := c, criticInvoked := true, path := .simRejected }
        | none =>
          { result := some best_match
            cache :=
              { c with
                cache_hits := c.cache_hits + 1
                reasoning_steps_saved :=
                  c.reasoning_steps_saved + best_match.reasoning_trace.length }
            criticInvoked := false
            path := .simHit }
      | none =>
        { result := none
          cache := { c with cache_misses := c.cache_misses + 1 }
          criticInvoked := false
          path := .noMatch }

/-- The counter bump performed by `update_outcome` on the located state. -/
def bumpOutcome (s : ReasoningState) (success : Bool) : ReasoningState :=
  if success then { s with success_count := s.success_count + 1 }
  else { s with failure_count := s.failure_count + 1 }

/-- `update_outcome` (from the `scripts/reasoning_cache.py` variant): find
the hash in working then episodic memory and bump one counter of that state
in place; silently do nothing when absent. -/
def ReasoningCache.update_outcome (c : ReasoningCache) (context_hash : String)
    (success : Bool) : ReasoningCache :=
  match alookup c.working_memory context_hash with
  | some state =>
    { c with working_memory := ainsert c.working_memory context_hash (bumpOutcome state success) }
  | none =>
    match alookup c.episodic_memory context_hash with
    | some state =>
      { c with
        episodic_memory := ainsert c.episodic_memory context_hash (bumpOutcome state success) }
    | none => c

/-- The first-seen-order deduplication loop of `extract_pattern`. -/
def firstDedup : List String → List String → List String
  | _, [] => []
  | seen, x :: xs => if x ∈ seen then firstDedup seen xs else x :: firstDedup (x :: seen) xs

/-- `extract_pattern`: collect the successful states of both tiers, abstract
their concatenated traces into up-to-10 first-seen-deduplicated steps, store
and return the pattern; `None` and no mutation when no state qualifies. -/
def ReasoningCache.extract_pattern (c : ReasoningCache) (pattern_type : String)
    (min_success_rate : ℚ) : Option ReasoningPattern × ReasoningCache :=
  let successful_states :=
    (c.working_memory.map Prod.snd ++ c.episodic_memory.map Prod.snd).filter
      (fun s => decide (min_success_rate ≤ s.get_success_rate) &&
        decide (0 < s.reasoning_trace.length))
  match successful_states with
  | [] => (none, c)
  | _ :: _ =>
    let common_steps := successful_states.foldl (fun acc s => acc ++ s.reasoning_trace) []
    let unique_steps := firstDedup [] common_steps
    let rates := successful_states.map (fun s => s.get_success_rate)
    let avg_rate :=
      if 0 < rates.length then ratDiv (rates.foldl (fun a b => a + b) 0) ((rates.length : Nat) : ℚ)
      else 0
    let pattern : ReasoningPattern :=
      { pattern_id := "pattern_" ++ pattern_type ++ "_" ++ toString c.procedural_memory.length
        pattern_type := pattern_type
        preconditions := []
        steps := unique_steps.take 10
        success_contexts := successful_states.map (fun s => s.context_hash)
        avg_success_rate := avg_rate
        uses := 0 }
    (some pattern,
      { c with procedural_memory := ainsert c.procedural_memory pattern.pattern_id pattern })

/-! ## Operation sequences (for reachability statements) -/

/-- One public cache operation with its inputs. -/
inductive CacheOp where
  | cache (context : Context) (reasoning_trace : List String)
      (intermediate_values : Context) (confidence : ℚ) (now : Nat)
  | retrieve (context : Context) (similarity_threshold : ℚ) (completion_fn : Option Critic)
  | outcome (context_hash : String) (success : Bool)
  | extract (pattern_type : String) (min_success_rate : ℚ)

/-- Apply one operation, keeping only the cache state. -/
def applyOp (sha : String → String) (c : ReasoningCache) : CacheOp → ReasoningCache
  | .cache ctx tr iv conf now => (c.cache_reasoning sha ctx tr iv conf now).2
  | .retrieve ctx thr f => (c.retrieve_reasoning sha ctx thr f).cache
  | .outcome h s => c.update_outcome h s
  | .extract ty r => (c.extract_pattern ty r).2

/-- Run a sequence of operations. -/
def runOps (sha : String → String) (c : ReasoningCache) : List CacheOp → ReasoningCache
  | [] => c
  | op :: tl => runOps sha (applyOp sha c op) tl

/-! ## Gate characterization -/

theorem alookup_append_left {α : Type} (l₁ l₂ : List (String × α)) (k : String) (v : α)
    (h : alookup l₁ k = some v) : alookup (l₁ ++ l₂) k = some v := by
  induction l₁ with
  | nil => simp [alookup] at h
  | cons p tl ih =>
    obtain ⟨k₀, v₀⟩ := p
    by_cases h₀ : k₀ = k
    · subst h₀
      simp only [alookup, if_pos rfl, ite_true] at h ⊢
      exact h
    · simp only [List.cons_append, alookup, if_neg h₀] at h ⊢
      exact ih h

theorem alookup_append_right {α : Type} (l₁ l₂ : List (String × α)) (k : String)
    (h : alookup l₁ k = none) : alookup (l₁ ++ l₂) k = alookup l₂ k := by
  induction l₁ with
  | nil => simp
  | cons p tl ih =>
    obtain ⟨k₀, v₀⟩ := p
    by_cases h₀ : k₀ = k
    · simp [alookup, h₀] at h
    · simp only [alookup, if_neg h₀] at h
      simp only [List.cons_append, alookup, if_neg h₀]
      exact ih h

theorem akeys_append {α : Type} (l₁ l₂ : List (String × α)) :
    akeys (l₁ ++ l₂) = akeys l₁ ++ akeys l₂ := by
  simp [akeys]

theorem alookup_decomp {α : Type} (l₁ l₂ : List (String × α)) (k : String) (v : α)
    (hnd : (akeys (l₁ ++ (k, v) :: l₂)).Nodup) :
    alookup (l₁ ++ (k, v) :: l₂) k = some v := by
  rw [akeys_append, List.nodup_append] at hnd
  have hk : k ∉ akeys l₁ := by
    intro hmem
    exact hnd.2.2 hmem (by simp [akeys])
  rw [alookup_append_right _ _ _ ((alookup_eq_none_iff l₁ k).mpr hk)]
  simp [alookup]

theorem aremove_decomp {α : Type} (l₁ l₂ : List (String × α)) (k : String) (v : α)
    (hk : k ∉ akeys l₁) : aremove (l₁ ++ (k, v) :: l₂) k = l₁ ++ l₂ := by
  induction l₁ with
  | nil => simp [aremove]
  | cons p tl ih =>
    obtain ⟨k₀, v₀⟩ := p
    rw [akeys_cons, List.mem_cons] at hk
    push_neg at hk
    have h₀ : ¬ k₀ = k := fun hh => hk.1 hh.symm
    simp only [List.cons_append, aremove, if_neg h₀]
    rw [show tl.append ((k, v) :: l₂) = tl ++ (k, v) :: l₂ from rfl, ih hk.2]

/-- The least-value scan, characterized: it either keeps its accumulator
(everything is at least `v₀`), or returns the leftmost resident whose value
is below `v₀` and minimal in the list. -/
theorem wmMinGo_char (l : List (String × ReasoningState)) :
    ∀ (k₀ : String) (v₀ : ℚ),
    (wmMinGo (some k₀, some v₀) l = (some k₀, some v₀) ∧
      ∀ p ∈ l, v₀ ≤ stateValue p.2) ∨
    (∃ l₁ p l₂, l = l₁ ++ p :: l₂ ∧
      wmMinGo (some k₀, some v₀) l = (some p.1, some (stateValue p.2)) ∧
      stateValue p.2 < v₀ ∧
      (∀ q ∈ l₁, stateValue p.2 < stateValue q.2) ∧
      (∀ q ∈ l₂, stateValue p.2 ≤ stateValue q.2)) := by
  induction l with
  | nil =>
    intro k₀ v₀
    left
    exact ⟨rfl, by simp⟩
  | cons hd tl ih =>
    intro k₀ v₀
    obtain ⟨k, s⟩ := hd
    by_cases hlt : stateValue s < v₀
    · rw [show wmMinGo (some k₀, some v₀) ((k, s) :: tl) =
          wmMinGo (some k, some (stateValue s)) tl from by simp [wmMinGo, hlt]]
      rcases ih k (stateValue s) with ⟨heq, hmin⟩ | ⟨t₁, p, t₂, hdec, hres, hplt, hl, hr⟩
      · right
        exact ⟨[], (k, s), tl, by simp, heq, hlt, by simp, hmin⟩
      · right
        refine ⟨(k, s) :: t₁, p, t₂, by rw [hdec]; rfl, hres, lt_trans hplt hlt, ?_, hr⟩
        intro q hq
        rcases List.mem_cons.mp hq with hq | hq
        · rw [hq]
          exact hplt
        · exact hl q hq
    · rw [show wmMinGo (some k₀, some v₀) ((k, s) :: tl) =
          wmMinGo (some k₀, some v₀) tl from by simp [wmMinGo, hlt]]
      rcases ih k₀ v₀ with ⟨heq, hmin⟩ | ⟨t₁, p, t₂, hdec, hres, hplt, hl, hr⟩
      · left
        refine ⟨heq, ?_⟩
        intro p hp
        rcases List.mem_cons.mp hp with hp | hp
        · rw [hp]
          exact not_lt.mp hlt
        · exact hmin p hp
      · right
        refine ⟨(k, s) :: t₁, p, t₂, by rw [hdec]; rfl, hres, hplt, ?_, hr⟩
        intro q hq
        rcases List.mem_cons.mp hq with hq | hq
        · rw [hq]
          exact lt_of_lt_of_le hplt (not_lt.mp hlt)
        · exact hl q hq

/-- The scan from the initial `(None, inf)` accumulator returns the leftmost
minimum-value entry of a non-empty list. -/
theorem wmMin_leftmost (l : List (String × ReasoningState)) (hne : l ≠ []) :
    ∃ l₁ p l₂, l = l₁ ++ p :: l₂ ∧
      wmMinGo (none, none) l = (some p.1, some (stateValue p.2)) ∧
      (∀ q ∈ l₁, stateValue p.2 < stateValue q.2) ∧
      (∀ q ∈ l₂, stateValue p.2 ≤ stateValue q.2) := by
  cases l with
  | nil => exact absurd rfl hne
  | cons hd tl =>
    obtain ⟨k, s⟩ := hd
    rw [show wmMinGo (none, none) ((k, s) :: tl) =
        wmMinGo (some k, some (stateValue s)) tl from by simp [wmMinGo]]
    rcases wmMinGo_char tl k (stateValue s) with ⟨heq, hmin⟩ |
      ⟨t₁, p, t₂, hdec, hres, hplt, hl, hr⟩
    · exact ⟨[], (k, s), tl, by simp, heq, by simp, hmin⟩
    · refine ⟨(k, s) :: t₁, p, t₂, by rw [hdec]; rfl, hres, ?_, hr⟩
      intro q hq
      rcases List.mem_cons.mp hq with hq | hq
      · rw [hq]
        exact hplt
      · exact hl q hq

theorem gate_reject_lowconf (c : ReasoningCache) (h : String) (s : ReasoningState)
    (hconf : s.confidence < c.cache_threshold) : c.gate_update h s = (false, c) := by
  simp [ReasoningCache.gate_update, hconf]

theorem gate_admit_below (c : ReasoningCache) (h : String) (s : ReasoningState)
    (hconf : ¬ s.confidence < c.cache_threshold)
    (hlen : c.working_memory.length < c.wm_capacity) : c.gate_update h s = (true, c) := by
  simp [ReasoningCache.gate_update, hconf, not_le.mpr hlen]

theorem gate_full_reject (c : ReasoningCache) (h : String) (s : ReasoningState)
    (hconf : ¬ s.confidence < c.cache_threshold)
    (hlen : c.wm_capacity ≤ c.working_memory.length)
    (hmin : ∀ p ∈ c.working_memory, stateValue s ≤ stateValue p.2) :
    c.gate_update h s = (false, c) := by
  rw [ReasoningCache.gate_update, if_neg hconf, if_pos hlen]
  cases hwm : c.working_memory with
  | nil => simp [wmMinGo]
  | cons hd tl =>
    obtain ⟨l₁, p, l₂, hdec, hres, hleft, hright⟩ :=
      wmMin_leftmost c.working_memory (by rw [hwm]; exact List.cons_ne_nil _ _)
    rw [← hwm, hres]
    have hple : stateValue s ≤ stateValue p.2 := hmin p (by rw [hdec]; simp)
    simp [show ratMul s.confidence s.get_success_rate ≤ stateValue p.2 from hple]

theorem gate_full_admit (c : ReasoningCache) (h : String) (s : ReasoningState)
    (hconf : ¬ s.confidence < c.cache_threshold)
    (hlen : c.wm_capacity ≤ c.working_memory.length)
    (hnd : (akeys c.working_memory).Nodup)
    (hne : "" ∉ akeys c.working_memory)
    (hex : ∃ q ∈ c.working_memory, stateValue q.2 < stateValue s) :
    ∃ l₁ p l₂, c.working_memory = l₁ ++ p :: l₂ ∧
      (∀ q ∈ l₁, stateValue p.2 < stateValue q.2) ∧
      (∀ q ∈ l₂, stateValue p.2 ≤ stateValue q.2) ∧
      stateValue p.2 < stateValue s ∧
      c.gate_update h s =
        (true,
          { c with
            working_memory := l₁ ++ l₂
            episodic_memory := ainsert c.episodic_memory p.1 p.2 }) := by
  obtain ⟨q, hqmem, hqlt⟩ := hex
  have hwmne : c.working_memory ≠ [] := by
    intro hempty
    rw [hempty] at hqmem
    cases hqmem
  obtain ⟨l₁, p, l₂, hdec, hres, hleft, hright⟩ := wmMin_leftmost c.working_memory hwmne
  have hpmin : ∀ r ∈ c.working_memory, stateValue p.2 ≤ stateValue r.2 := by
    intro r hr
    rw [hdec] at hr
    rcases List.mem_append.mp hr with hr | hr
    · exact le_of_lt (hleft r hr)
    · rcases List.mem_cons.mp hr with hr | hr
      · rw [hr]
      · exact hright r hr
  have hplt : stateValue p.2 < stateValue s := lt_of_le_of_lt (hpmin q hqmem) hqlt
  have hpkey : p.1 ∈ akeys c.working_memory := by
    rw [hdec, akeys_append, akeys_cons]
    simp
  have hpne : ¬ p.1 = "" := fun hh => hne (hh ▸ hpkey)
  refine ⟨l₁, p, l₂, hdec, hleft, hright, hplt, ?_⟩
  rw [ReasoningCache.gate_update, if_neg hconf, if_pos hlen, hres]
  have hnle : ¬ ratMul s.confidence s.get_success_rate ≤ stateValue p.2 := by
    rw [show ratMul s.confidence s.get_success_rate = stateValue s from rfl]
    exact not_le.mpr hplt
  have hlook : alookup c.working_memory p.1 = some p.2 := by
    rw [hdec]
    exact alookup_decomp l₁ l₂ p.1 p.2 (by rw [← hdec]; exact hnd)
  have hknotin : p.1 ∉ akeys l₁ := by
    rw [hdec, akeys_append, List.nodup_append] at hnd
    intro hmem
    exact hnd.2.2 hmem (by rw [akeys_cons]; simp)
  have hrem : aremove c.working_memory p.1 = l₁ ++ l₂ := by
    rw [hdec]
    exact aremove_decomp l₁ l₂ p.1 p.2 hknotin
  simp [hnle, hpne, ReasoningCache.evict_to_episodic, hlook, hrem]

/-! ## Shape lemmas for the state-changing operations -/

theorem hash_ne_empty (sha : String → String) (hsha : ∀ str, sha str ≠ "")
    (context : Context) : compute_context_hash sha context ≠ "" := by
  rw [compute_context_hash]
  intro hcontra
  have hdata : ((sha (dumpsSorted context)).data.take 16) = [] :=
    congrArg String.data hcontra
  have hlen : ((sha (dumpsSorted context)).data.take 16).length = 0 := by
    rw [hdata]
    rfl
  rw [List.length_take] at hlen
  have hzero : (sha (dumpsSorted context)).data.length = 0 := by omega
  apply hsha (dumpsSorted context)
  cases hs : sha (dumpsSorted context) with
  | mk d =>
    rw [hs] at hzero
    have hd : d = [] := List.length_eq_zero.mp hzero
    rw [hd]

theorem exists_alookup_of_mem_akeys {α : Type} (l : List (String × α)) (k : String)
    (h : k ∈ akeys l) : ∃ v, alookup l k = some v := by
  have := (alookup_isSome_iff l k).mpr h
  exact Option.isSome_iff_exists.mp this

/-- `gate_update` either leaves the cache untouched (with either verdict,
and with `true` only below capacity), or admits after moving one present
working-memory entry to episodic memory. -/
theorem gate_shape (c : ReasoningCache) (h : String) (s : ReasoningState)
    (hkeys : ∀ k ∈ akeys c.working_memory, k ≠ "") :
    c.gate_update h s = (false, c) ∨
    (c.working_memory.length < c.wm_capacity ∧ c.gate_update h s = (true, c)) ∨
    (∃ mk v, alookup c.working_memory mk = some v ∧
      c.gate_update h s =
        (true,
          { c with
            working_memory := aremove c.working_memory mk
            episodic_memory := ainsert c.episodic_memory mk v })) := by
  by_cases hconf : s.confidence < c.cache_threshold
  · exact Or.inl (gate_reject_lowconf c h s hconf)
  · by_cases hlen : c.wm_capacity ≤ c.working_memory.length
    · by_cases hwmnil : c.working_memory = []
      · left
        rw [ReasoningCache.gate_update, if_neg hconf, if_pos hlen, hwmnil]
        simp [wmMinGo]
      · obtain ⟨l₁, p, l₂, hdec, hres, hleft, hright⟩ :=
          wmMin_leftmost c.working_memory hwmnil
        by_cases hle : ratMul s.confidence s.get_success_rate ≤ stateValue p.2
        · left
          rw [ReasoningCache.gate_update, if_neg hconf, if_pos hlen, hres]
          simp [hle]
        · right
          right
          have hpkey : p.1 ∈ akeys c.working_memory := by
            rw [hdec, akeys_append, akeys_cons]
            simp
          have hpne : ¬ p.1 = "" := hkeys p.1 hpkey
          obtain ⟨v, hv⟩ := exists_alookup_of_mem_akeys c.working_memory p.1 hpkey
          refine ⟨p.1, v, hv, ?_⟩
          rw [ReasoningCache.gate_update, if_neg hconf, if_pos hlen, hres]
          simp [hle, hpne, ReasoningCache.evict_to_episodic, hv]
    · right
      left
      exact ⟨not_le.mp hlen, gate_admit_below c h s hconf (not_le.mp hlen)⟩

/-- The working-memory invariant: within capacity, and no entry keyed by the
empty string (every stored key is a 16-character digest prefix). -/
def WMInv (c : ReasoningCache) : Prop :=
  c.working_memory.length ≤ c.wm_capacity ∧ ∀ k ∈ akeys c.working_memory, k ≠ ""

theorem wminv_insert (c : ReasoningCache) (wm' : List (String × ReasoningState))
    (h : String) (s : ReasoningState) (hinv : WMInv c)
    (hh : h ≠ "")
    (hsub : ∀ k ∈ akeys wm', k ∈ akeys c.working_memory)
    (hlen : wm'.length < c.wm_capacity ∨
      (wm'.length + 1 ≤ c.working_memory.length ∧
        c.working_memory.length ≤ c.wm_capacity)) :
    (ainsert wm' h s).length ≤ c.wm_capacity ∧
      ∀ k ∈ akeys (ainsert wm' h s), k ≠ "" := by
  constructor
  · by_cases hmem : h ∈ akeys wm'
    · rw [length_ainsert_mem wm' h s hmem]
      rcases hlen with hl | hl
      · exact le_of_lt hl
      · exact le_trans (Nat.le_of_succ_le hl.1) hl.2
    · rw [length_ainsert_not_mem wm' h s hmem]
      rcases hlen with hl | hl
      · exact hl
      · exact le_trans hl.1 hl.2
  · intro k hk
    rcases (mem_akeys_ainsert wm' h k s).mp hk with hk | hk
    · exact hinv.2 k (hsub k hk)
    · rw [hk]
      exact hh

theorem wminv_cache_reasoning (sha : String → String) (hsha : ∀ str, sha str ≠ "")
    (c : ReasoningCache) (ctx : Context) (tr : List String) (iv : Context) (conf : ℚ)
    (now : Nat) (hinv : WMInv c) :
    WMInv (c.cache_reasoning sha ctx tr iv conf now).2 := by
  simp only [ReasoningCache.cache_reasoning]
  set st : ReasoningState :=
    { context_hash := compute_context_hash sha ctx
      context_data := ctx
      reasoning_trace := tr
      intermediate_values := iv
      confidence := conf
      timestamp := now
      success_count := 0
      failure_count := 0 } with hst
  rcases gate_shape c (compute_context_hash sha ctx) st hinv.2 with hg | ⟨hlt, hg⟩ |
    ⟨mk, v, hv, hg⟩
  · rw [hg]
    exact hinv
  · rw [hg]
    simp only
    exact wminv_insert c c.working_memory (compute_context_hash sha ctx) st hinv
      (hash_ne_empty sha hsha ctx) (fun k hk => hk) (Or.inl hlt)
  · rw [hg]
    simp only
    have hmk : mk ∈ akeys c.working_memory :=
      (alookup_isSome_iff _ _).mp (by rw [hv]; rfl)
    exact wminv_insert c (aremove c.working_memory mk) (compute_context_hash sha ctx) st hinv
      (hash_ne_empty sha hsha ctx) (fun k hk => mem_akeys_aremove _ _ _ hk)
      (Or.inr ⟨by rw [length_aremove_mem _ _ hmk], hinv.1⟩)

theorem wminv_retrieve_reasoning (sha : String → String) (hsha : ∀ str, sha str ≠ "")
    (c : ReasoningCache) (ctx : Context) (thr : ℚ) (f : Option Critic) (hinv : WMInv c) :
    WMInv (c.retrieve_reasoning sha ctx thr f).cache := by
  simp only [ReasoningCache.retrieve_reasoning]
  cases hw : alookup c.working_memory (compute_context_hash sha ctx) with
  | some state => exact hinv
  | none =>
    cases he : alookup c.episodic_memory (compute_context_hash sha ctx) with
    | some state =>
      simp only
      by_cases hrate : Rat.divInt 7 10 < state.get_success_rate
      · rw [if_pos hrate]
        have hc₁ : WMInv { c with cache_hits := c.cache_hits + 1 } := hinv
        rcases gate_shape { c with cache_hits := c.cache_hits + 1 }
            (compute_context_hash sha ctx) state hinv.2 with hg | ⟨hlt, hg⟩ |
          ⟨mk, v, hv, hg⟩
        · rw [hg]
          exact hinv
        · rw [hg]
          simp only
          exact wminv_insert c c.working_memory (compute_context_hash sha ctx) state hinv
            (hash_ne_empty sha hsha ctx) (fun k hk => hk) (Or.inl hlt)
        · rw [hg]
          simp only
          have hmk : mk ∈ akeys c.working_memory :=
            (alookup_isSome_iff _ _).mp (by rw [show alookup c.working_memory mk = some v from hv]; rfl)
          exact wminv_insert c (aremove c.working_memory mk) (compute_context_hash sha ctx)
            state hinv (hash_ne_empty sha hsha ctx)
            (fun k hk => mem_akeys_aremove _ _ _ hk)
            (Or.inr ⟨by rw [length_aremove_mem _ _ hmk], hinv.1⟩)
      · rw [if_neg hrate]
        exact hinv
    | none =>
      simp only
      cases hacc : (bestSimMatch c (dumpsSorted ctx) thr).1 with
      | some best =>
        cases f with
        | some fn =>
          by_cases hver : verify_match (some fn) ctx best.context_data
          · simp only [hacc, hver, if_pos, ite_true]
            exact hinv
          · simp only [hacc, hver, ite_false]
            exact hinv
        | none =>
          simp only [hacc]
          exact hinv
      | none =>
        simp only [hacc]
        exact hinv

theorem wminv_update_outcome (c : ReasoningCache) (h : String) (b : Bool) (hinv : WMInv c) :
    WMInv (c.update_outcome h b) := by
  rw [ReasoningCache.update_outcome]
  cases hw : alookup c.working_memory h with
  | some state =>
    have hmem : h ∈ akeys c.working_memory :=
      (alookup_isSome_iff _ _).mp (by rw [hw]; rfl)
    refine ⟨?_, ?_⟩
    · show (ainsert c.working_memory h (bumpOutcome state b)).length ≤ c.wm_capacity
      rw [length_ainsert_mem _ _ _ hmem]
      exact hinv.1
    · show ∀ k ∈ akeys (ainsert c.working_memory h (bumpOutcome state b)), k ≠ ""
      intro k hk
      rcases (mem_akeys_ainsert _ _ _ _).mp hk with hk | hk
      · exact hinv.2 k hk
      · rw [hk]
        exact hinv.2 h hmem
  | none =>
    cases he : alookup c.episodic_memory h with
    | some state => exact hinv
    | none => exact hinv

theorem wminv_extract_pattern (c : ReasoningCache) (ty : String) (r : ℚ) (hinv : WMInv c) :
    WMInv (c.extract_pattern ty r).2 := by
  rw [ReasoningCache.extract_pattern]
  cases hss : (c.working_memory.map Prod.snd ++ c.episodic_memory.map Prod.snd).filter
      (fun s => decide (r ≤ s.get_success_rate) && decide (0 < s.reasoning_trace.length)) with
  | nil => exact hinv
  | cons s tl => exact hinv

theorem wminv_applyOp (sha : String → String) (hsha : ∀ str, sha str ≠ "")
    (c : ReasoningCache) (op : CacheOp) (hinv : WMInv c) : WMInv (applyOp sha c op) := by
  cases op with
  | cache ctx tr iv conf now => exact wminv_cache_reasoning sha hsha c ctx tr iv conf now hinv
  | retrieve ctx thr f => exact wminv_retrieve_reasoning sha hsha c ctx thr f hinv
  | outcome h b => exact wminv_update_outcome c h b hinv
  | extract ty r => exact wminv_extract_pattern c ty r hinv

theorem wminv_runOps (sha : String → String) (hsha : ∀ str, sha str ≠ "")
    (ops : List CacheOp) : ∀ (c : ReasoningCache), WMInv c → WMInv (runOps sha c ops) := by
  induction ops with
  | nil => exact fun c hinv => hinv
  | cons op tl ih =>
    intro c hinv
    exact ih (applyOp sha c op) (wminv_applyOp sha hsha c op hinv)

/-- The state record built by `cache_reasoning` (fresh counters, caller clock). -/
def freshState (sha : String → String) (ctx : Context) (tr : List String) (iv : Context)
    (conf : ℚ) (now : Nat) : ReasoningState where
  context_hash := compute_context_hash sha ctx
  context_data := ctx
  reasoning_trace := tr
  intermediate_values := iv
  confidence := conf
  timestamp := now
  success_count := 0
  failure_count := 0

/-- How `cache_reasoning` changes the tiers: the new state is stored in
episodic memory (rejected), in working memory (admitted with room), or in
working memory after one resident moved to episodic memory (admitted by
displacement).  The returned key is the context hash. -/
theorem cache_shape (sha : String → String) (c : ReasoningCache) (ctx : Context)
    (tr : List String) (iv : Context) (conf : ℚ) (now : Nat)
    (hkeys : ∀ k ∈ akeys c.working_memory, k ≠ "") :
    (c.cache_reasoning sha ctx tr iv conf now).1 = compute_context_hash sha ctx ∧
    ((c.cache_reasoning sha ctx tr iv conf now).2 = { c with episodic_memory := ainsert c.episodic_memory (compute_context_hash sha ctx) (freshState sha ctx tr iv conf now) } ∨
      (c.cache_reasoning sha ctx tr iv conf now).2 = { c with working_memory := ainsert c.working_memory (compute_context_hash sha ctx) (freshState sha ctx tr iv conf now) } ∨
      ∃ mk v, alookup c.working_memory mk = some v ∧
        (c.cache_reasoning sha ctx tr iv conf now).2 = { c with working_memory := ainsert (aremove c.working_memory mk) (compute_context_hash sha ctx) (freshState sha ctx tr iv conf now), episodic_memory := ainsert c.episodic_memory mk v }) := by
  simp only [ReasoningCache.cache_reasoning]
  rcases gate_shape c (compute_context_hash sha ctx) (freshState sha ctx tr iv conf now)
      hkeys with hg | ⟨hlt, hg⟩ | ⟨mk, v, hv, hg⟩
  · rw [show c.gate_update (compute_context_hash sha ctx) { context_hash := compute_context_hash sha ctx, context_data := ctx, reasoning_trace := tr, intermediate_values := iv, confidence := conf, timestamp := now, success_count := 0, failure_count := 0 } = (false, c) from hg]
    exact ⟨rfl, Or.inl rfl⟩
  · rw [show c.gate_update (compute_context_hash sha ctx) { context_hash := compute_context_hash sha ctx, context_data := ctx, reasoning_trace := tr, intermediate_values := iv, confidence := conf, timestamp := now, success_count := 0, failure_count := 0 } = (true, c) from hg]
    exact ⟨rfl, Or.inr (Or.inl rfl)⟩
  · rw [show c.gate_update (compute_context_hash sha ctx) { context_hash := compute_context_hash sha ctx, context_data := ctx, reasoning_trace := tr, intermediate_values := iv, confidence := conf, timestamp := now, success_count := 0, failure_count := 0 } = (true, { c with working_memory := aremove c.working_memory mk, episodic_memory := ainsert c.episodic_memory mk v }) from hg]
    exact ⟨rfl, Or.inr (Or.inr ⟨mk, v, hv, rfl⟩)⟩

/-- How `retrieve_reasoning` changes the tiers: either not at all (only
statistics move), or — on an episodic exact hit with promotion — the found
state moves from episodic to working memory, possibly displacing one
resident to episodic memory. -/
theorem retrieve_shape (sha : String → String) (c : ReasoningCache) (ctx : Context)
    (thr : ℚ) (f : Option Critic)
    (hkeys : ∀ k ∈ akeys c.working_memory, k ≠ "") :
    ((c.retrieve_reasoning sha ctx thr f).cache.working_memory = c.working_memory ∧
      (c.retrieve_reasoning sha ctx thr f).cache.episodic_memory = c.episodic_memory) ∨
    (∃ state,
      alookup c.working_memory (compute_context_hash sha ctx) = none ∧
      alookup c.episodic_memory (compute_context_hash sha ctx) = some state ∧
      (((c.retrieve_reasoning sha ctx thr f).cache.working_memory =
          ainsert c.working_memory (compute_context_hash sha ctx) state ∧
        (c.retrieve_reasoning sha ctx thr f).cache.episodic_memory =
          aremove c.episodic_memory (compute_context_hash sha ctx)) ∨
      (∃ mk v, alookup c.working_memory mk = some v ∧
        (c.retrieve_reasoning sha ctx thr f).cache.working_memory =
          ainsert (aremove c.working_memory mk) (compute_context_hash sha ctx) state ∧
        (c.retrieve_reasoning sha ctx thr f).cache.episodic_memory =
          aremove (ainsert c.episodic_memory mk v) (compute_context_hash sha ctx)))) := by
  simp only [ReasoningCache.retrieve_reasoning]
  cases hw : alookup c.working_memory (compute_context_hash sha ctx) with
  | some state => exact Or.inl ⟨rfl, rfl⟩
  | none =>
    cases he : alookup c.episodic_memory (compute_context_hash sha ctx) with
    | some state =>
      by_cases hrate : Rat.divInt 7 10 < state.get_success_rate
      · simp only [if_pos hrate]
        rcases gate_shape { c with cache_hits := c.cache_hits + 1 }
            (compute_context_hash sha ctx) state hkeys with hg | ⟨hlt, hg⟩ |
          ⟨mk, v, hv, hg⟩
        · rw [hg]
          refine Or.inl ⟨?_, ?_⟩ <;> trivial
        · rw [hg]
          refine Or.inr ⟨state, ?_, ?_, Or.inl ⟨?_, ?_⟩⟩ <;> trivial
        · rw [hg]
          refine Or.inr ⟨state, ?_, ?_, Or.inr ⟨mk, v, hv, ?_, ?_⟩⟩ <;> trivial
      · simp only [if_neg hrate]
        refine Or.inl ⟨?_, ?_⟩ <;> trivial
    | none =>
      cases hacc : (bestSimMatch c (dumpsSorted ctx) thr).1 with
      | some best =>
        cases f with
        | some fn =>
          by_cases hver : verify_match (some fn) ctx best.context_data
          · simp only [hver, ite_true]
            refine Or.inl ⟨?_, ?_⟩ <;> trivial
          · simp only [Bool.not_eq_true] at hver
            simp only [hver, ite_false]
            refine Or.inl ⟨?_, ?_⟩ <;> trivial
        | none => exact Or.inl ⟨rfl, rfl⟩
      | none => exact Or.inl ⟨rfl, rfl⟩

/-- How `update_outcome` changes the tiers: one present entry is replaced by
its counter-bumped version, in place. -/
theorem update_outcome_shape (c : ReasoningCache) (h : String) (b : Bool) :
    ((c.update_outcome h b).working_memory = c.working_memory ∧
      (c.update_outcome h b).episodic_memory = c.episodic_memory) ∨
    (∃ state, alookup c.working_memory h = some state ∧
      (c.update_outcome h b).working_memory =
        ainsert c.working_memory h (bumpOutcome state b) ∧
      (c.update_outcome h b).episodic_memory = c.episodic_memory) ∨
    (∃ state, alookup c.episodic_memory h = some state ∧
      (c.update_outcome h b).working_memory = c.working_memory ∧
      (c.update_outcome h b).episodic_memory =
        ainsert c.episodic_memory h (bumpOutcome state b)) := by
  rw [ReasoningCache.update_outcome]
  cases hw : alookup c.working_memory h with
  | some state => exact Or.inr (Or.inl ⟨state, rfl, rfl, rfl⟩)
  | none =>
    cases he : alookup c.episodic_memory h with
    | some state => exact Or.inr (Or.inr ⟨state, rfl, rfl, rfl⟩)
    | none => exact Or.inl ⟨rfl, rfl⟩

/-- `extract_pattern` never touches the tiers. -/
theorem extract_pattern_tiers (c : ReasoningCache) (ty : String) (r : ℚ) :
    (c.extract_pattern ty r).2.working_memory = c.working_memory ∧
    (c.extract_pattern ty r).2.episodic_memory = c.episodic_memory := by
  rw [ReasoningCache.extract_pattern]
  cases hss : (c.working_memory.map Prod.snd ++ c.episodic_memory.map Prod.snd).filter
      (fun s => decide (r ≤ s.get_success_rate) && decide (0 < s.reasoning_trace.length)) with
  | nil => exact ⟨rfl, rfl⟩
  | cons s tl => exact ⟨rfl, rfl⟩

/-! ## Tier well-formedness: unique keys, disjoint tiers -/

/-- Well-formed tiers: both are genuine dicts (unique keys), no context hash
is in both at once, and no working-memory key is the empty string. -/
def CacheWF (c : ReasoningCache) : Prop :=
  (akeys c.working_memory).Nodup ∧ (akeys c.episodic_memory).Nodup ∧
  (∀ k ∈ akeys c.working_memory, k ∉ akeys c.episodic_memory) ∧
  (∀ k ∈ akeys c.working_memory, k ≠ "")

instance (c : ReasoningCache) : Decidable (CacheWF c) :=
  inferInstanceAs (Decidable ((akeys c.working_memory).Nodup ∧
    (akeys c.episodic_memory).Nodup ∧
    (∀ k ∈ akeys c.working_memory, k ∉ akeys c.episodic_memory) ∧
    (∀ k ∈ akeys c.working_memory, k ≠ "")))

theorem cachewf_retrieve_reasoning (sha : String → String) (hsha : ∀ str, sha str ≠ "")
    (c : ReasoningCache) (ctx : Context) (thr : ℚ) (f : Option Critic)
    (hwf : CacheWF c) : CacheWF ((c.retrieve_reasoning sha ctx thr f).cache) := by
  obtain ⟨hndw, hnde, hdisj, hne⟩ := hwf
  rcases retrieve_shape sha c ctx thr f hne with ⟨hwm, hem⟩ |
    ⟨state, hw, he, ⟨hwm, hem⟩ | ⟨mk, v, hv, hwm, hem⟩⟩
  · rw [CacheWF, hwm, hem]
    exact ⟨hndw, hnde, hdisj, hne⟩
  · rw [CacheWF, hwm, hem]
    refine ⟨nodup_akeys_ainsert _ _ _ hndw, nodup_akeys_aremove _ _ hnde, ?_, ?_⟩
    · intro k hkw hke
      rcases (mem_akeys_ainsert _ _ _ _).mp hkw with hkw | hkw
      · exact hdisj k hkw (mem_akeys_aremove _ _ _ hke)
      · subst hkw
        have : alookup (aremove c.episodic_memory (compute_context_hash sha ctx))
            (compute_context_hash sha ctx) = none := alookup_aremove_self _ _ hnde
        exact absurd hke ((alookup_eq_none_iff _ _).mp this)
    · intro k hk
      rcases (mem_akeys_ainsert _ _ _ _).mp hk with hk | hk
      · exact hne k hk
      · rw [hk]
        exact hash_ne_empty sha hsha ctx
  · have hmkw : mk ∈ akeys c.working_memory :=
      (alookup_isSome_iff _ _).mp (by rw [hv]; rfl)
    have hmke : mk ∉ akeys c.episodic_memory := fun hmem => hdisj mk hmkw hmem
    rw [CacheWF, hwm, hem]
    refine ⟨nodup_akeys_ainsert _ _ _ (nodup_akeys_aremove _ _ hndw),
      nodup_akeys_aremove _ _ (nodup_akeys_ainsert _ _ _ hnde), ?_, ?_⟩
    · intro k hkw hke
      have hke' : k ∈ akeys (ainsert c.episodic_memory mk v) := mem_akeys_aremove _ _ _ hke
      rcases (mem_akeys_ainsert _ _ _ _).mp hkw with hkw | hkw
      · rcases (mem_akeys_ainsert _ _ _ _).mp hke' with hke'' | hke''
        · exact hdisj k (mem_akeys_aremove _ _ _ hkw) hke''
        · rw [hke''] at hkw
          have : alookup (aremove c.working_memory mk) mk = none :=
            alookup_aremove_self _ _ hndw
          exact absurd hkw ((alookup_eq_none_iff _ _).mp this)
      · subst hkw
        have hnd' : (akeys (ainsert c.episodic_memory mk v)).Nodup :=
          nodup_akeys_ainsert _ _ _ hnde
        have : alookup (aremove (ainsert c.episodic_memory mk v)
            (compute_context_hash sha ctx)) (compute_context_hash sha ctx) = none :=
          alookup_aremove_self _ _ hnd'
        exact absurd hke ((alookup_eq_none_iff _ _).mp this)
    · intro k hk
      rcases (mem_akeys_ainsert _ _ _ _).mp hk with hk | hk
      · exact hne k (mem_akeys_aremove _ _ _ hk)
      · rw [hk]
        exact hash_ne_empty sha hsha ctx

theorem cachewf_cache_reasoning (sha : String → String) (hsha : ∀ str, sha str ≠ "")
    (c : ReasoningCache) (ctx : Context) (tr : List String) (iv : Context) (conf : ℚ)
    (now : Nat) (hwf : CacheWF c)
    (hfw : compute_context_hash sha ctx ∉ akeys c.working_memory)
    (hfe : compute_context_hash sha ctx ∉ akeys c.episodic_memory) :
    CacheWF ((c.cache_reasoning sha ctx tr iv conf now).2) := by
  obtain ⟨hndw, hnde, hdisj, hne⟩ := hwf
  rcases (cache_shape sha c ctx tr iv conf now hne).2 with hc | hc | ⟨mk, v, hv, hc⟩
  · rw [CacheWF, hc]
    refine ⟨hndw, nodup_akeys_ainsert _ _ _ hnde, ?_, hne⟩
    intro k hkw hke
    rcases (mem_akeys_ainsert _ _ _ _).mp hke with hke | hke
    · exact hdisj k hkw hke
    · subst hke
      exact hfw hkw
  · rw [CacheWF, hc]
    refine ⟨nodup_akeys_ainsert _ _ _ hndw, hnde, ?_, ?_⟩
    · intro k hkw hke
      rcases (mem_akeys_ainsert _ _ _ _).mp hkw with hkw | hkw
      · exact hdisj k hkw hke
      · subst hkw
        exact hfe hke
    · intro k hk
      rcases (mem_akeys_ainsert _ _ _ _).mp hk with hk | hk
      · exact hne k hk
      · rw [hk]
        exact hash_ne_empty sha hsha ctx
  · have hmkw : mk ∈ akeys c.working_memory :=
      (alookup_isSome_iff _ _).mp (by rw [hv]; rfl)
    have hmke : mk ∉ akeys c.episodic_memory := fun hmem => hdisj mk hmkw hmem
    rw [CacheWF, hc]
    refine ⟨nodup_akeys_ainsert _ _ _ (nodup_akeys_aremove _ _ hndw),
      nodup_akeys_ainsert _ _ _ hnde, ?_, ?_⟩
    · intro k hkw hke
      rcases (mem_akeys_ainsert _ _ _ _).mp hkw with hkw | hkw
      · rcases (mem_akeys_ainsert _ _ _ _).mp hke with hke | hke
        · exact hdisj k (mem_akeys_aremove _ _ _ hkw) hke
        · rw [hke] at hkw
          have : alookup (aremove c.working_memory mk) mk = none :=
            alookup_aremove_self _ _ hndw
          exact absurd hkw ((alookup_eq_none_iff _ _).mp this)
      · subst hkw
        rcases (mem_akeys_ainsert _ _ _ _).mp hke with hke | hke
        · exact hfe hke
        · rw [hke] at hfw
          exact hfw hmkw
    · intro k hk
      rcases (mem_akeys_ainsert _ _ _ _).mp hk with hk | hk
      · exact hne k (mem_akeys_aremove _ _ _ hk)
      · rw [hk]
        exact hash_ne_empty sha hsha ctx

theorem cachewf_update_outcome (c : ReasoningCache) (h : String) (b : Bool)
    (hwf : CacheWF c) : CacheWF (c.update_outcome h b) := by
  obtain ⟨hndw, hnde, hdisj, hne⟩ := hwf
  rcases update_outcome_shape c h b with ⟨hwm, hem⟩ |
    ⟨state, hl, hwm, hem⟩ | ⟨state, hl, hwm, hem⟩
  · rw [CacheWF, hwm, hem]
    exact ⟨hndw, hnde, hdisj, hne⟩
  · have hmem : h ∈ akeys c.working_memory :=
      (alookup_isSome_iff _ _).mp (by rw [hl]; rfl)
    rw [CacheWF, hwm, hem]
    refine ⟨nodup_akeys_ainsert _ _ _ hndw, hnde, ?_, ?_⟩
    · intro k hkw hke
      rcases (mem_akeys_ainsert _ _ _ _).mp hkw with hkw | hkw
      · exact hdisj k hkw hke
      · subst hkw
        exact hdisj _ hmem hke
    · intro k hk
      rcases (mem_akeys_ainsert _ _ _ _).mp hk with hk | hk
      · exact hne k hk
      · rw [hk]
        exact hne h hmem
  · have hmem : h ∈ akeys c.episodic_memory :=
      (alookup_isSome_iff _ _).mp (by rw [hl]; rfl)
    rw [CacheWF, hwm, hem]
    refine ⟨hndw, nodup_akeys_ainsert _ _ _ hnde, ?_, hne⟩
    intro k hkw hke
    rcases (mem_akeys_ainsert _ _ _ _).mp hke with hke | hke
    · exact hdisj k hkw hke
    · subst hke
      exact hdisj _ hkw hmem

theorem cachewf_extract_pattern (c : ReasoningCache) (ty : String) (r : ℚ)
    (hwf : CacheWF c) : CacheWF ((c.extract_pattern ty r).2) := by
  obtain ⟨hwm, hem⟩ := extract_pattern_tiers c ty r
  rw [CacheWF, hwm, hem]
  exact hwf

/-! ## Filling working memory with a run of cache calls (for the
capacity-plus-one scenario) -/

/-- The arguments of one `cache_reasoning` call. -/
structure CacheCall where
  context : Context
  reasoning_trace : List String
  intermediate_values : Context
  confidence : ℚ
  now : Nat

/-- The state a call builds. -/
def CacheCall.state (sha : String → String) (cc : CacheCall) : ReasoningState :=
  freshState sha cc.context cc.reasoning_trace cc.intermediate_values cc.confidence cc.now

/-- The hash a call computes. -/
def CacheCall.hash (sha : String → String) (cc : CacheCall) : String :=
  compute_context_hash sha cc.context

/-- Run a sequence of `cache_reasoning` calls. -/
def runCaches (sha : String → String) (c : ReasoningCache) : List CacheCall → ReasoningCache
  | [] => c
  | cc :: tl =>
    runCaches sha
      (c.cache_reasoning sha cc.context cc.reasoning_trace cc.intermediate_values
        cc.confidence cc.now).2 tl

theorem ainsert_not_mem {α : Type} (l : List (String × α)) (k : String) (v : α)
    (h : k ∉ akeys l) : ainsert l k v = l ++ [(k, v)] := by
  induction l with
  | nil => rfl
  | cons p tl ih =>
    obtain ⟨k₀, v₀⟩ := p
    rw [akeys_cons, List.mem_cons] at h
    push_neg at h
    have h₀ : ¬ k₀ = k := fun hh => h.1 hh.symm
    simp only [ainsert, if_neg h₀, List.cons_append]
    rw [ih h.2]

theorem fresh_success_rate (sha : String → String) (ctx : Context) (tr : List String)
    (iv : Context) (conf : ℚ) (now : Nat) :
    (freshState sha ctx tr iv conf now).get_success_rate = Rat.divInt 1 2 := rfl

theorem fresh_stateValue (sha : String → String) (ctx : Context) (tr : List String)
    (iv : Context) (conf : ℚ) (now : Nat) :
    stateValue (freshState sha ctx tr iv conf now) = conf * (Rat.divInt 1 2) := by
  rw [stateValue, fresh_success_rate, ratMul_eq]
  rfl

/-- Fresh-state values are ordered exactly as the confidences. -/
theorem fresh_value_lt (a b : ℚ) (h : a < b) :
    a * Rat.divInt 1 2 < b * Rat.divInt 1 2 := by
  have hpos : (0 : ℚ) < Rat.divInt 1 2 := by decide
  exact mul_lt_mul_of_pos_right h hpos

/-- Filling below capacity: a run of admissible calls on fresh hashes lands
entirely in working memory, in call order, leaving episodic memory as it
was (empty). -/
theorem runCaches_fill (sha : String → String) (calls : List CacheCall) :
    ∀ c : ReasoningCache,
    c.episodic_memory = [] →
    c.working_memory.length + calls.length ≤ c.wm_capacity →
    (∀ cc ∈ calls, ¬ cc.confidence < c.cache_threshold) →
    (akeys c.working_memory ++ calls.map (CacheCall.hash sha)).Nodup →
    (runCaches sha c calls).working_memory =
      c.working_memory ++ calls.map (fun cc => (cc.hash sha, cc.state sha)) ∧
    (runCaches sha c calls).episodic_memory = [] ∧
    (runCaches sha c calls).wm_capacity = c.wm_capacity ∧
    (runCaches sha c calls).cache_threshold = c.cache_threshold ∧
    (runCaches sha c calls).cache_hits = c.cache_hits ∧
    (runCaches sha c calls).reasoning_steps_saved = c.reasoning_steps_saved := by
  induction calls with
  | nil =>
    intro c hem _ _ _
    simp [runCaches, hem]
  | cons cc tl ih =>
    intro c hem hlen hthr hnd
    have hconf : ¬ cc.confidence < c.cache_threshold := hthr cc (List.mem_cons_self _ _)
    have hbelow : c.working_memory.length < c.wm_capacity := by
      simp only [List.length_cons] at hlen
      omega
    have hgate : c.gate_update (cc.hash sha) (cc.state sha) = (true, c) :=
      gate_admit_below c _ _ hconf hbelow
    have hstep : (c.cache_reasoning sha cc.context cc.reasoning_trace
        cc.intermediate_values cc.confidence cc.now).2 =
        { c with working_memory := ainsert c.working_memory (cc.hash sha) (cc.state sha) } := by
      simp only [ReasoningCache.cache_reasoning]
      rw [show c.gate_update (compute_context_hash sha cc.context) { context_hash := compute_context_hash sha cc.context, context_data := cc.context, reasoning_trace := cc.reasoning_trace, intermediate_values := cc.intermediate_values, confidence := cc.confidence, timestamp := cc.now, success_count := 0, failure_count := 0 } = (true, c) from hgate]
      rfl
    have hhne : cc.hash sha ∉ akeys c.working_memory := by
      intro hmem
      rw [List.nodup_append] at hnd
      exact hnd.2.2 hmem (by simp [List.mem_cons])
    have hains : ainsert c.working_memory (cc.hash sha) (cc.state sha) =
        c.working_memory ++ [(cc.hash sha, cc.state sha)] :=
      ainsert_not_mem _ _ _ hhne
    rw [runCaches, hstep]
    have hres := ih { c with working_memory := ainsert c.working_memory (cc.hash sha) (cc.state sha) }
      (by simpa using hem)
      (by rw [hains, List.length_append]
          simp only [List.length_cons] at hlen
          simp only [List.length_singleton]
          omega)
      (by intro cc' hcc'
          exact hthr cc' (List.mem_cons_of_mem _ hcc'))
      (by simp only [hains, akeys_append, akeys_cons, akeys_nil]
          simp only [List.map_cons] at hnd
          rw [List.append_assoc]
          simpa using hnd)
    obtain ⟨h₁, h₂, h₃, h₄, h₅, h₆⟩ := hres
    refine ⟨?_, h₂, h₃, h₄, h₅, h₆⟩
    rw [h₁]
    simp only [hains, List.map_cons]
    rw [List.append_assoc]
    rfl

/-! ## Parameter constancy: no operation changes the configured capacity -/

theorem evict_capacity (c : ReasoningCache) (k : String) :
    (c.evict_to_episodic k).wm_capacity = c.wm_capacity := by
  rw [ReasoningCache.evict_to_episodic]
  cases alookup c.working_memory k <;> rfl

theorem gate_snd_shape (c : ReasoningCache) (h : String) (s : ReasoningState) :
    (c.gate_update h s).2 = c ∨ ∃ k, (c.gate_update h s).2 = c.evict_to_episodic k := by
  simp only [ReasoningCache.gate_update]
  by_cases h1 : s.confidence < c.cache_threshold
  · simp [h1]
  · simp only [if_neg h1]
    by_cases h2 : c.wm_capacity ≤ c.working_memory.length
    · simp only [if_pos h2]
      cases hacc : wmMinGo (none, none) c.working_memory with
      | mk o1 o2 =>
        cases o2 with
        | none => simp [hacc]
        | some m =>
          by_cases h3 : ratMul s.confidence s.get_success_rate ≤ m
          · simp [hacc, h3]
          · cases o1 with
            | none => simp [hacc, h3]
            | some mk =>
              by_cases h4 : mk = ""
              · simp [hacc, h3, h4]
              · right
                refine ⟨mk, ?_⟩
                simp [hacc, h3, h4]
    · simp [h2]

theorem gate_capacity (c : ReasoningCache) (h : String) (s : ReasoningState) :
    (c.gate_update h s).2.wm_capacity = c.wm_capacity := by
  rcases gate_snd_shape c h s with hc | ⟨k, hc⟩
  · rw [hc]
  · rw [hc, evict_capacity]

theorem cache_reasoning_capacity (sha : String → String) (c : ReasoningCache)
    (ctx : Context) (tr : List String) (iv : Context) (conf : ℚ) (now : Nat) :
    (c.cache_reasoning sha ctx tr iv conf now).2.wm_capacity = c.wm_capacity := by
  simp only [ReasoningCache.cache_reasoning]
  cases hg : c.gate_update (compute_context_hash sha ctx)
      { context_hash := compute_context_hash sha ctx, context_data := ctx,
        reasoning_trace := tr, intermediate_values := iv, confidence := conf,
        timestamp := now, success_count := 0, failure_count := 0 } with
  | mk b c' =>
    have hcap : c'.wm_capacity = c.wm_capacity := by
      have := gate_capacity c (compute_context_hash sha ctx)
        { context_hash := compute_context_hash sha ctx, context_data := ctx,
          reasoning_trace := tr, intermediate_values := iv, confidence := conf,
          timestamp := now, success_count := 0, failure_count := 0 }
      rw [hg] at this
      exact this
    cases b <;> simp [hg, hcap]

theorem retrieve_reasoning_capacity (sha : String → String) (c : ReasoningCache)
    (ctx : Context) (thr : ℚ) (f : Option Critic) :
    (c.retrieve_reasoning sha ctx thr f).cache.wm_capacity = c.wm_capacity := by
  simp only [ReasoningCache.retrieve_reasoning]
  cases hw : alookup c.working_memory (compute_context_hash sha ctx) with
  | some state => rfl
  | none =>
    cases he : alookup c.episodic_memory (compute_context_hash sha ctx) with
    | some state =>
      by_cases hrate : Rat.divInt 7 10 < state.get_success_rate
      · simp only [if_pos hrate]
        cases hg : ({ c with cache_hits := c.cache_hits + 1 } :
            ReasoningCache).gate_update (compute_context_hash sha ctx) state with
        | mk b c' =>
          have hcap : c'.wm_capacity = c.wm_capacity := by
            have := gate_capacity { c with cache_hits := c.cache_hits + 1 }
              (compute_context_hash sha ctx) state
            rw [hg] at this
            exact this
          cases b <;> simp [hg, hcap]
      · simp only [if_neg hrate]
    | none =>
      cases hacc : (bestSimMatch c (dumpsSorted ctx) thr).1 with
      | some best =>
        cases f with
        | some fn =>
          by_cases hver : verify_match (some fn) ctx best.context_data
          · simp only [hver, ite_true]
          · simp only [Bool.not_eq_true] at hver
            simp only [hver, ite_false]
            rfl
        | none => rfl
      | none => rfl

theorem update_outcome_capacity (c : ReasoningCache) (h : String) (b : Bool) :
    (c.update_outcome h b).wm_capacity = c.wm_capacity := by
  rw [ReasoningCache.update_outcome]
  cases alookup c.working_memory h with
  | some state => rfl
  | none =>
    cases alookup c.episodic_memory h with
    | some state => rfl
    | none => rfl

theorem extract_pattern_capacity (c : ReasoningCache) (ty : String) (r : ℚ) :
    (c.extract_pattern ty r).2.wm_capacity = c.wm_capacity := by
  rw [ReasoningCache.extract_pattern]
  cases (c.working_memory.map Prod.snd ++ c.episodic_memory.map Prod.snd).filter
      (fun s => decide (r ≤ s.get_success_rate) && decide (0 < s.reasoning_trace.length)) with
  | nil => rfl
  | cons s tl => rfl

theorem applyOp_capacity (sha : String → String) (c : ReasoningCache) (op : CacheOp) :
    (applyOp sha c op).wm_capacity = c.wm_capacity := by
  cases op with
  | cache ctx tr iv conf now => exact cache_reasoning_capacity sha c ctx tr iv conf now
  | retrieve ctx thr f => exact retrieve_reasoning_capacity sha c ctx thr f
  | outcome h b => exact update_outcome_capacity c h b
  | extract ty r => exact extract_pattern_capacity c ty r

theorem runOps_capacity (sha : String → String) (ops : List CacheOp) :
    ∀ c : ReasoningCache, (runOps sha c ops).wm_capacity = c.wm_capacity := by
  induction ops with
  | nil => exact fun c => rfl
  | cons op tl ih =>
    intro c
    rw [runOps, ih (applyOp sha c op), applyOp_capacity]

/-! ## Concrete instances used by witnesses and counterexamples -/

/-- A concrete digest stand-in: the identity (used where no property of the
digest is needed). -/
def idsha : String → String := fun s => s

/-- A concrete digest stand-in with 64 hex characters of output. -/
def shaHex : String → String := fun _ => String.mk (List.replicate 64 'a')

/-- A concrete digest stand-in with provably non-empty output. -/
def shaNE : String → String := fun s => "h" ++ s

theorem shaNE_ne_empty : ∀ s, shaNE s ≠ "" := by
  intro s hcontra
  have hlen := congrArg String.length hcontra
  rw [show shaNE s = "h" ++ s from rfl, String.length_append] at hlen
  have h1 : ("h" : String).length = 1 := rfl
  have h0 : ("" : String).length = 0 := rfl
  omega

def ctxA : Context := [("a", Jval.jstr "compute 15 percent of 80 now")]

def ctxB : Context := [("b", Jval.jstr "compute 15 percent of 80 now")]

def ctxP₁ : Context := [("a", Jval.jstr "x"), ("b", Jval.jstr "y")]

def ctxP₂ : Context := [("b", Jval.jstr "y"), ("a", Jval.jstr "x")]

/-- The hex digits produced by `hexdigest()`. -/
def hexDigits : List Char := "0123456789abcdef".data

/-! ## Claim 7 -/

/-- C7: for every pair of contexts with identical key-value content,
regardless of key insertion order, the context hasher produces the same
fingerprint; and whenever the digest primitive returns 64 hex characters
(as `hashlib.sha256(...).hexdigest()` does), that fingerprint is exactly 16
hex characters. -/
theorem claim7_hash_deterministic (sha : String → String) (ctx₁ ctx₂ : Context)
    (hperm : List.Perm ctx₁ ctx₂) (hnd : (ctx₁.map Prod.fst).Nodup) :
    compute_context_hash sha ctx₁ = compute_context_hash sha ctx₂ ∧
    ((∀ s, (sha s).length = 64 ∧ ∀ ch ∈ (sha s).data, ch ∈ hexDigits) →
      (compute_context_hash sha ctx₁).length = 16 ∧
      ∀ ch ∈ (compute_context_hash sha ctx₁).data, ch ∈ hexDigits) := by
  constructor
  · rw [compute_context_hash, compute_context_hash,
      dumpsSorted_perm_invariant ctx₁ ctx₂ hperm hnd]
  · intro hhex
    obtain ⟨hlen, hch⟩ := hhex (dumpsSorted ctx₁)
    constructor
    · show ((sha (dumpsSorted ctx₁)).data.take 16).length = 16
      rw [List.length_take]
      have : (sha (dumpsSorted ctx₁)).data.length = 64 := hlen
      omega
    · intro ch hchm
      exact hch ch (List.take_subset 16 _ hchm)

/-- Witness for C7 at concrete inputs: two permuted two-key contexts and a
64-hex-character digest function. -/
theorem claim7_hash_deterministic_witness :
    List.Perm ctxP₁ ctxP₂ ∧ (ctxP₁.map Prod.fst).Nodup ∧
    (compute_context_hash shaHex ctxP₁ = compute_context_hash shaHex ctxP₂ ∧
      ((∀ s, (shaHex s).length = 64 ∧ ∀ ch ∈ (shaHex s).data, ch ∈ hexDigits) →
        (compute_context_hash shaHex ctxP₁).length = 16 ∧
        ∀ ch ∈ (compute_context_hash shaHex ctxP₁).data, ch ∈ hexDigits)) := by
  refine ⟨List.Perm.swap ("b", Jval.jstr "y") ("a", Jval.jstr "x") [], by decide, ?_⟩
  exact claim7_hash_deterministic shaHex ctxP₁ ctxP₂
    (List.Perm.swap ("b", Jval.jstr "y") ("a", Jval.jstr "x") []) (by decide)

/-! ## Claim 9 -/

/-- C9: when no stored state has `success_rate ≥ min_success_rate` together
with a non-empty trace, `extract_pattern` returns nothing and the cache —
both tiers, the pattern store, and the statistics — is left unchanged. -/
theorem claim9_extract_pattern_no_candidates (c : ReasoningCache) (ty : String) (r : ℚ)
    (hnone : ∀ s ∈ c.working_memory.map Prod.snd ++ c.episodic_memory.map Prod.snd,
      s.get_success_rate < r ∨ s.reasoning_trace = []) :
    c.extract_pattern ty r = (none, c) := by
  have hfil : (c.working_memory.map Prod.snd ++ c.episodic_memory.map Prod.snd).filter
      (fun s => decide (r ≤ s.get_success_rate) && decide (0 < s.reasoning_trace.length)) =
      [] := by
    rw [List.filter_eq_nil_iff]
    intro s hs
    rcases hnone s hs with hlow | hempty
    · simp [not_le.mpr hlow]
    · simp [hempty]
  rw [ReasoningCache.extract_pattern, hfil]

/-- Witness for C9: a cache holding one low-success state in working memory
and one trace-less state in episodic memory. -/
theorem claim9_extract_pattern_no_candidates_witness :
    (∀ s ∈ (runOps idsha defaultCache
        [CacheOp.cache ctxA ["s1"] [] (Rat.divInt 9 10) 0,
         CacheOp.cache ctxB [] [] (Rat.divInt 5 10) 1]).working_memory.map Prod.snd ++
        (runOps idsha defaultCache
        [CacheOp.cache ctxA ["s1"] [] (Rat.divInt 9 10) 0,
         CacheOp.cache ctxB [] [] (Rat.divInt 5 10) 1]).episodic_memory.map Prod.snd,
      s.get_success_rate < Rat.divInt 3 4 ∨ s.reasoning_trace = []) ∧
    (runOps idsha defaultCache
        [CacheOp.cache ctxA ["s1"] [] (Rat.divInt 9 10) 0,
         CacheOp.cache ctxB [] [] (Rat.divInt 5 10) 1]).extract_pattern "deductive"
        (Rat.divInt 3 4) =
      (none, runOps idsha defaultCache
        [CacheOp.cache ctxA ["s1"] [] (Rat.divInt 9 10) 0,
         CacheOp.cache ctxB [] [] (Rat.divInt 5 10) 1]) := by
  refine ⟨by decide, ?_⟩
  exact claim9_extract_pattern_no_candidates _ "deductive" (Rat.divInt 3 4) (by decide)

/-! ## Claim 10 -/

/-- C10 (implicit): re-caching a context whose hash is already stored, with
the Gate routing the new state to the tier that holds the old one, replaces
the old state wholesale: afterwards that tier maps the hash to a state with
the new trace, confidence and timestamp and with both outcome counters
re-initialized to zero — the accumulated history is discarded, not merged. -/
theorem claim10_last_write_wins (sha : String → String) (c : ReasoningCache)
    (ctx : Context) (tr : List String) (iv : Context) (conf : ℚ) (now : Nat) :
    ((c.gate_update (compute_context_hash sha ctx)
        (freshState sha ctx tr iv conf now)).1 = true →
      alookup (c.cache_reasoning sha ctx tr iv conf now).2.working_memory
          (compute_context_hash sha ctx) =
        some (freshState sha ctx tr iv conf now)) ∧
    ((c.gate_update (compute_context_hash sha ctx)
        (freshState sha ctx tr iv conf now)).1 = false →
      alookup (c.cache_reasoning sha ctx tr iv conf now).2.episodic_memory
          (compute_context_hash sha ctx) =
        some (freshState sha ctx tr iv conf now)) ∧
    (freshState sha ctx tr iv conf now).success_count = 0 ∧
    (freshState sha ctx tr iv conf now).failure_count = 0 ∧
    (freshState sha ctx tr iv conf now).reasoning_trace = tr ∧
    (freshState sha ctx tr iv conf now).confidence = conf ∧
    (freshState sha ctx tr iv conf now).timestamp = now := by
  refine ⟨?_, ?_, rfl, rfl, rfl, rfl, rfl⟩
  · intro hadmit
    have hadmit' : (c.gate_update (compute_context_hash sha ctx)
        { context_hash := compute_context_hash sha ctx, context_data := ctx,
          reasoning_trace := tr, intermediate_values := iv, confidence := conf,
          timestamp := now, success_count := 0, failure_count := 0 }).1 = true := hadmit
    simp only [ReasoningCache.cache_reasoning]
    cases hg : c.gate_update (compute_context_hash sha ctx)
        { context_hash := compute_context_hash sha ctx, context_data := ctx,
          reasoning_trace := tr, intermediate_values := iv, confidence := conf,
          timestamp := now, success_count := 0, failure_count := 0 } with
    | mk b c' =>
      rw [hg] at hadmit'
      rw [show b = true from hadmit']
      simp only [ite_true]
      exact alookup_ainsert_self _ _ _
  · intro hreject
    have hreject' : (c.gate_update (compute_context_hash sha ctx)
        { context_hash := compute_context_hash sha ctx, context_data := ctx,
          reasoning_trace := tr, intermediate_values := iv, confidence := conf,
          timestamp := now, success_count := 0, failure_count := 0 }).1 = false := hreject
    simp only [ReasoningCache.cache_reasoning]
    cases hg : c.gate_update (compute_context_hash sha ctx)
        { context_hash := compute_context_hash sha ctx, context_data := ctx,
          reasoning_trace := tr, intermediate_values := iv, confidence := conf,
          timestamp := now, success_count := 0, failure_count := 0 } with
    | mk b c' =>
      rw [hg] at hreject'
      rw [show b = false from hreject']
      simp only [ite_false]
      exact alookup_ainsert_self _ _ _

/-- Witness for C10: re-cache `ctxA` (already admitted to working memory)
with a new trace; the gate admits again, and the stored state is the new one
with zeroed counters. -/
theorem claim10_last_write_wins_witness :
    ((runOps idsha defaultCache [CacheOp.cache ctxA ["s1"] [] (Rat.divInt 9 10) 0,
        CacheOp.outcome (compute_context_hash idsha ctxA) true]).gate_update
      (compute_context_hash idsha ctxA)
      (freshState idsha ctxA ["s2"] [] (Rat.divInt 8 10) 5)).1 = true ∧
    alookup ((runOps idsha defaultCache [CacheOp.cache ctxA ["s1"] [] (Rat.divInt 9 10) 0,
        CacheOp.outcome (compute_context_hash idsha ctxA) true]).cache_reasoning idsha ctxA
        ["s2"] [] (Rat.divInt 8 10) 5).2.working_memory (compute_context_hash idsha ctxA) =
      some (freshState idsha ctxA ["s2"] [] (Rat.divInt 8 10) 5) := by
  refine ⟨by decide, ?_⟩
  exact (claim10_last_write_wins idsha _ ctxA ["s2"] [] (Rat.divInt 8 10) 5).1 (by decide)

/-! ## Claim 4 -/

/-- C4: the Gate's decision on a well-formed working memory (unique,
non-empty keys, as every reachable dict has): reject below the confidence
threshold; otherwise admit outright below capacity; otherwise reject iff the
candidate's value `confidence * success_rate` is at most every resident's
value (i.e. at most the minimum), and, when admitting, transfer exactly the
minimum-value resident — the first in insertion order on ties, witnessed by
the list decomposition with strictly greater values on the left — from
working to episodic memory. -/
theorem claim4_gate_spec (c : ReasoningCache) (h : String) (s : ReasoningState)
    (hnd : (akeys c.working_memory).Nodup)
    (hne : "" ∉ akeys c.working_memory) :
    (s.confidence < c.cache_threshold → c.gate_update h s = (false, c)) ∧
    (c.cache_threshold ≤ s.confidence → c.working_memory.length < c.wm_capacity →
      c.gate_update h s = (true, c)) ∧
    (c.cache_threshold ≤ s.confidence → c.wm_capacity ≤ c.working_memory.length →
      ((∀ p ∈ c.working_memory, stateValue s ≤ stateValue p.2) →
        c.gate_update h s = (false, c)) ∧
      ((∃ p ∈ c.working_memory, stateValue p.2 < stateValue s) →
        ∃ l₁ p l₂, c.working_memory = l₁ ++ p :: l₂ ∧
          (∀ q ∈ l₁, stateValue p.2 < stateValue q.2) ∧
          (∀ q ∈ l₂, stateValue p.2 ≤ stateValue q.2) ∧
          stateValue p.2 < stateValue s ∧
          c.gate_update h s =
            (true, { c with working_memory := l₁ ++ l₂,
                            episodic_memory := ainsert c.episodic_memory p.1 p.2 }))) := by
  have hne' : ∀ k ∈ akeys c.working_memory, k ≠ "" := by
    intro k hk hkeq
    exact hne (hkeq ▸ hk)
  refine ⟨fun hconf => gate_reject_lowconf c h s hconf, ?_, ?_⟩
  · intro hconf hroom
    exact gate_admit_below c h s (not_lt.mpr hconf) hroom
  · intro hconf hfull
    refine ⟨fun hmin => gate_full_reject c h s (not_lt.mpr hconf) hfull hmin, ?_⟩
    intro hex
    exact gate_full_admit c h s (not_lt.mpr hconf) hfull hnd hne hex

/-- Witness for C4: a two-resident working memory at capacity 2, a candidate
valuable enough to displace the second (minimum-value) resident. -/
theorem claim4_gate_spec_witness :
    (akeys (runOps idsha (ReasoningCache.init 2 (Rat.divInt 6 10) (Rat.divInt 19 20) "m")
      [CacheOp.cache ctxA ["s1"] [] (Rat.divInt 9 10) 0,
       CacheOp.cache ctxB ["s2"] [] (Rat.divInt 7 10) 1]).working_memory).Nodup ∧
    "" ∉ akeys (runOps idsha (ReasoningCache.init 2 (Rat.divInt 6 10) (Rat.divInt 19 20) "m")
      [CacheOp.cache ctxA ["s1"] [] (Rat.divInt 9 10) 0,
       CacheOp.cache ctxB ["s2"] [] (Rat.divInt 7 10) 1]).working_memory ∧
    ((runOps idsha (ReasoningCache.init 2 (Rat.divInt 6 10) (Rat.divInt 19 20) "m")
      [CacheOp.cache ctxA ["s1"] [] (Rat.divInt 9 10) 0,
       CacheOp.cache ctxB ["s2"] [] (Rat.divInt 7 10) 1]).cache_threshold ≤
        (freshState idsha ctxP₁ ["s3"] [] (Rat.divInt 8 10) 2).confidence) ∧
    ((runOps idsha (ReasoningCache.init 2 (Rat.divInt 6 10) (Rat.divInt 19 20) "m")
      [CacheOp.cache ctxA ["s1"] [] (Rat.divInt 9 10) 0,
       CacheOp.cache ctxB ["s2"] [] (Rat.divInt 7 10) 1]).wm_capacity ≤
      (runOps idsha (ReasoningCache.init 2 (Rat.divInt 6 10) (Rat.divInt 19 20) "m")
      [CacheOp.cache ctxA ["s1"] [] (Rat.divInt 9 10) 0,
       CacheOp.cache ctxB ["s2"] [] (Rat.divInt 7 10) 1]).working_memory.length) ∧
    (∃ p ∈ (runOps idsha (ReasoningCache.init 2 (Rat.divInt 6 10) (Rat.divInt 19 20) "m")
      [CacheOp.cache ctxA ["s1"] [] (Rat.divInt 9 10) 0,
       CacheOp.cache ctxB ["s2"] [] (Rat.divInt 7 10) 1]).working_memory,
      stateValue p.2 < stateValue (freshState idsha ctxP₁ ["s3"] [] (Rat.divInt 8 10) 2)) ∧
    (∃ l₁ p l₂, (runOps idsha (ReasoningCache.init 2 (Rat.divInt 6 10) (Rat.divInt 19 20) "m")
      [CacheOp.cache ctxA ["s1"] [] (Rat.divInt 9 10) 0,
       CacheOp.cache ctxB ["s2"] [] (Rat.divInt 7 10) 1]).working_memory = l₁ ++ p :: l₂ ∧
      (∀ q ∈ l₁, stateValue p.2 < stateValue q.2) ∧
      (∀ q ∈ l₂, stateValue p.2 ≤ stateValue q.2) ∧
      stateValue p.2 < stateValue (freshState idsha ctxP₁ ["s3"] [] (Rat.divInt 8 10) 2) ∧
      (runOps idsha (ReasoningCache.init 2 (Rat.divInt 6 10) (Rat.divInt 19 20) "m")
      [CacheOp.cache ctxA ["s1"] [] (Rat.divInt 9 10) 0,
       CacheOp.cache ctxB ["s2"] [] (Rat.divInt 7 10) 1]).gate_update "k"
        (freshState idsha ctxP₁ ["s3"] [] (Rat.divInt 8 10) 2) =
        (true, { (runOps idsha (ReasoningCache.init 2 (Rat.divInt 6 10) (Rat.divInt 19 20) "m")
      [CacheOp.cache ctxA ["s1"] [] (Rat.divInt 9 10) 0,
       CacheOp.cache ctxB ["s2"] [] (Rat.divInt 7 10) 1]) with
            working_memory := l₁ ++ l₂,
            episodic_memory := ainsert (runOps idsha
              (ReasoningCache.init 2 (Rat.divInt 6 10) (Rat.divInt 19 20) "m")
      [CacheOp.cache ctxA ["s1"] [] (Rat.divInt 9 10) 0,
       CacheOp.cache ctxB ["s2"] [] (Rat.divInt 7 10) 1]).episodic_memory p.1 p.2 })) := by
  refine ⟨by decide, by decide, by decide, by decide, ?_, ?_⟩
  · exact ⟨(compute_context_hash idsha ctxB, freshState idsha ctxB ["s2"] [] (Rat.divInt 7 10) 1),
      List.Mem.tail _ (List.Mem.head _), by decide⟩
  · exact ((claim4_gate_spec _ "k" (freshState idsha ctxP₁ ["s3"] [] (Rat.divInt 8 10) 2)
      (by decide) (by decide)).2.2 (by decide) (by decide)).2
      ⟨(compute_context_hash idsha ctxB, freshState idsha ctxB ["s2"] [] (Rat.divInt 7 10) 1),
        List.Mem.tail _ (List.Mem.head _), by decide⟩

/-! ## Claim 8 -/

/-- C8: starting from a freshly constructed cache with any configured
working-memory capacity, after any sequence of operations — caching with its
admissions and evictions, retrieval with its promotions, outcome updates,
pattern extraction — the number of working-memory entries never exceeds that
capacity.  The digest is assumed to return non-empty strings, as
`sha256(...).hexdigest()` (64 characters) does. -/
theorem claim8_capacity_invariant (sha : String → String) (hsha : ∀ s, sha s ≠ "")
    (cap : Nat) (thr dr : ℚ) (vm : String) (ops : List CacheOp) :
    (runOps sha (ReasoningCache.init cap thr dr vm) ops).working_memory.length ≤ cap := by
  have hinv : WMInv (runOps sha (ReasoningCache.init cap thr dr vm) ops) :=
    wminv_runOps sha hsha ops (ReasoningCache.init cap thr dr vm)
      ⟨by simp [ReasoningCache.init], by simp [ReasoningCache.init, akeys]⟩
  have hcap : (runOps sha (ReasoningCache.init cap thr dr vm) ops).wm_capacity = cap :=
    runOps_capacity sha ops (ReasoningCache.init cap thr dr vm)
  exact le_trans hinv.1 (le_of_eq hcap)

/-- Witness for C8: three caches into a capacity-2 cache (with a displacing
third confidence), a promotion-triggering retrieval, an outcome update and a
pattern extraction, under the non-empty digest `shaNE`. -/
theorem claim8_capacity_invariant_witness :
    (∀ s, shaNE s ≠ "") ∧
    (runOps shaNE (ReasoningCache.init 2 (Rat.divInt 6 10) (Rat.divInt 19 20) "m")
      [CacheOp.cache ctxA ["s1"] [] (Rat.divInt 9 10) 0,
       CacheOp.cache ctxB ["s2"] [] (Rat.divInt 7 10) 1,
       CacheOp.cache ctxP₁ ["s3"] [] (Rat.divInt 8 10) 2,
       CacheOp.outcome (compute_context_hash shaNE ctxB) true,
       CacheOp.retrieve ctxB (Rat.divInt 7 10) none,
       CacheOp.extract "t" (Rat.divInt 3 4)]).working_memory.length ≤ 2 :=
  ⟨shaNE_ne_empty,
    claim8_capacity_invariant shaNE shaNE_ne_empty 2 (Rat.divInt 6 10) (Rat.divInt 19 20) "m"
      [CacheOp.cache ctxA ["s1"] [] (Rat.divInt 9 10) 0,
       CacheOp.cache ctxB ["s2"] [] (Rat.divInt 7 10) 1,
       CacheOp.cache ctxP₁ ["s3"] [] (Rat.divInt 8 10) 2,
       CacheOp.outcome (compute_context_hash shaNE ctxB) true,
       CacheOp.retrieve ctxB (Rat.divInt 7 10) none,
       CacheOp.extract "t" (Rat.divInt 3 4)]⟩

/-! ## Claims 3, 5 and 6: the retrieval paths -/

/-- Common helper: when both exact lookups miss, the similarity search finds
a best candidate, and `verify_match` comes back `False`, the retrieval
returns no state and the cache object is completely unchanged — in
particular neither the hit counter, nor the miss counter, nor any state's
outcome counters move. -/
theorem retrieve_sim_rejected (sha : String → String) (c : ReasoningCache) (ctx : Context)
    (thr : ℚ) (fn : Critic) (best : ReasoningState)
    (hw : alookup c.working_memory (compute_context_hash sha ctx) = none)
    (he : alookup c.episodic_memory (compute_context_hash sha ctx) = none)
    (hbest : (bestSimMatch c (dumpsSorted ctx) thr).1 = some best)
    (hver : verify_match (some fn) ctx best.context_data = false) :
    c.retrieve_reasoning sha ctx thr (some fn) =
      { result := none, cache := c, criticInvoked := true, path := .simRejected } := by
  simp only [ReasoningCache.retrieve_reasoning, hw, he, hbest, hver, ite_false]
  rfl

/-- The concrete one-entry cache used by the retrieval witnesses. -/
def cOne : ReasoningCache :=
  runOps idsha defaultCache [CacheOp.cache ctxA ["s1", "s2"] [] (Rat.divInt 9 10) 0]

/-- A Critic whose completion function answers `"NO"`. -/
def noCritic : Critic := fun _ _ => CriticResponse.content "NO"

/-- A Critic whose completion function raises. -/
def exnCritic : Critic := fun _ _ => CriticResponse.raisedExn

/-- A Critic whose completion function returns a malformed response. -/
def badShapeCritic : Critic := fun _ _ => CriticResponse.malformed

/-- Counterexample to C3 as stated: `ctxB` scores 0.75 ≥ 0.7 against the
cached `ctxA` but the Critic answers `"NO"`; the call returns no state and
counts no hit — but, contrary to the claim, the miss counter is NOT
incremented (the verification-failure path returns before
`cache_misses += 1`). -/
theorem claim3_counterexample :
    (cOne.retrieve_reasoning idsha ctxB (Rat.divInt 7 10) (some noCritic)).result.isNone =
        true ∧
    (cOne.retrieve_reasoning idsha ctxB (Rat.divInt 7 10) (some noCritic)).path =
        RetrievePath.simRejected ∧
    (cOne.retrieve_reasoning idsha ctxB (Rat.divInt 7 10) (some noCritic)).criticInvoked =
        true ∧
    ¬ ((cOne.retrieve_reasoning idsha ctxB (Rat.divInt 7 10) (some noCritic)).cache.cache_misses =
        cOne.cache_misses + 1) := by
  refine ⟨by decide, by decide, by decide, by decide⟩

/-- C3 as amended: a similarity candidate at/above threshold rejected by the
verification callable yields no state, no hit, unchanged candidate counters
— and, unlike the claim's final conjunct, the miss counter is also left
unchanged (the event is not recorded in the statistics at all). -/
theorem claim3_amended_verification_failure (sha : String → String) (c : ReasoningCache)
    (ctx : Context) (thr : ℚ) (fn : Critic) (best : ReasoningState)
    (hw : alookup c.working_memory (compute_context_hash sha ctx) = none)
    (he : alookup c.episodic_memory (compute_context_hash sha ctx) = none)
    (hbest : (bestSimMatch c (dumpsSorted ctx) thr).1 = some best)
    (hver : verify_match (some fn) ctx best.context_data = false) :
    c.retrieve_reasoning sha ctx thr (some fn) =
      { result := none, cache := c, criticInvoked := true, path := .simRejected } ∧
    (c.retrieve_reasoning sha ctx thr (some fn)).cache.cache_hits = c.cache_hits ∧
    (c.retrieve_reasoning sha ctx thr (some fn)).cache.cache_misses = c.cache_misses := by
  have hmain := retrieve_sim_rejected sha c ctx thr fn best hw he hbest hver
  exact ⟨hmain, by rw [hmain], by rw [hmain]⟩

/-- Witness for the amended C3 at the concrete rejected-match input. -/
theorem claim3_amended_verification_failure_witness :
    alookup cOne.working_memory (compute_context_hash idsha ctxB) = none ∧
    alookup cOne.episodic_memory (compute_context_hash idsha ctxB) = none ∧
    (bestSimMatch cOne (dumpsSorted ctxB) (Rat.divInt 7 10)).1 =
      some (freshState idsha ctxA ["s1", "s2"] [] (Rat.divInt 9 10) 0) ∧
    verify_match (some noCritic) ctxB
      (freshState idsha ctxA ["s1", "s2"] [] (Rat.divInt 9 10) 0).context_data = false ∧
    cOne.retrieve_reasoning idsha ctxB (Rat.divInt 7 10) (some noCritic) =
      { result := none, cache := cOne, criticInvoked := true, path := .simRejected } := by
  refine ⟨rfl, rfl, rfl, by decide, ?_⟩
  exact (claim3_amended_verification_failure idsha cOne ctxB (Rat.divInt 7 10) noCritic
    (freshState idsha ctxA ["s1", "s2"] [] (Rat.divInt 9 10) 0)
    rfl rfl rfl (by decide)).1

/-- C6: on the similarity-match path, a Critic that raises, or whose
response has an unexpected shape, is treated uniformly as verification
failure: the retrieval returns no state instead of propagating the error,
the cache is unchanged, and nothing is counted as a hit. -/
theorem claim6_critic_fail_closed (sha : String → String) (c : ReasoningCache)
    (ctx : Context) (thr : ℚ) (fn : Critic) (best : ReasoningState)
    (hw : alookup c.working_memory (compute_context_hash sha ctx) = none)
    (he : alookup c.episodic_memory (compute_context_hash sha ctx) = none)
    (hbest : (bestSimMatch c (dumpsSorted ctx) thr).1 = some best)
    (hcrit : fn ctx best.context_data = CriticResponse.raisedExn ∨
      fn ctx best.context_data = CriticResponse.malformed) :
    c.retrieve_reasoning sha ctx thr (some fn) =
      { result := none, cache := c, criticInvoked := true, path := .simRejected } ∧
    (c.retrieve_reasoning sha ctx thr (some fn)).cache.cache_hits = c.cache_hits := by
  have hver : verify_match (some fn) ctx best.context_data = false := by
    rcases hcrit with hcase | hcase <;> simp [verify_match, hcase]
  have hmain := retrieve_sim_rejected sha c ctx thr fn best hw he hbest hver
  exact ⟨hmain, by rw [hmain]⟩

/-- Witness for C6 at a concrete raising Critic. -/
theorem claim6_critic_fail_closed_witness :
    alookup cOne.working_memory (compute_context_hash idsha ctxB) = none ∧
    alookup cOne.episodic_memory (compute_context_hash idsha ctxB) = none ∧
    (bestSimMatch cOne (dumpsSorted ctxB) (Rat.divInt 7 10)).1 =
      some (freshState idsha ctxA ["s1", "s2"] [] (Rat.divInt 9 10) 0) ∧
    (exnCritic ctxB (freshState idsha ctxA ["s1", "s2"] [] (Rat.divInt 9 10) 0).context_data =
      CriticResponse.raisedExn ∨
      exnCritic ctxB (freshState idsha ctxA ["s1", "s2"] [] (Rat.divInt 9 10) 0).context_data =
      CriticResponse.malformed) ∧
    cOne.retrieve_reasoning idsha ctxB (Rat.divInt 7 10) (some exnCritic) =
      { result := none, cache := cOne, criticInvoked := true, path := .simRejected } := by
  refine ⟨rfl, rfl, rfl, Or.inl rfl, ?_⟩
  exact (claim6_critic_fail_closed idsha cOne ctxB (Rat.divInt 7 10) exnCritic
    (freshState idsha ctxA ["s1", "s2"] [] (Rat.divInt 9 10) 0)
    rfl rfl rfl (Or.inl rfl)).1

/-! ## Claim 5 -/

/-- C5: caching a context with confidence at/above threshold while working
memory has room, then retrieving any content-equal context (any key order),
is an exact working-memory hit returning the identical trace; the
verification callable is never invoked on this path. -/
theorem claim5_exact_hit_roundtrip (sha : String → String) (c : ReasoningCache)
    (ctx₁ ctx₂ : Context) (tr : List String) (iv : Context) (conf : ℚ) (now : Nat)
    (thr : ℚ) (f : Option Critic)
    (hperm : List.Perm ctx₁ ctx₂) (hnd : (ctx₁.map Prod.fst).Nodup)
    (hconf : c.cache_threshold ≤ conf)
    (hroom : c.working_memory.length < c.wm_capacity) :
    ((c.cache_reasoning sha ctx₁ tr iv conf now).2.retrieve_reasoning sha ctx₂ thr f) =
      { result := some (freshState sha ctx₁ tr iv conf now)
        cache := { (c.cache_reasoning sha ctx₁ tr iv conf now).2 with
          cache_hits := (c.cache_reasoning sha ctx₁ tr iv conf now).2.cache_hits + 1
          reasoning_steps_saved :=
            (c.cache_reasoning sha ctx₁ tr iv conf now).2.reasoning_steps_saved + tr.length }
        criticInvoked := false
        path := .wmExact } ∧
    (freshState sha ctx₁ tr iv conf now).reasoning_trace = tr := by
  have hconf' : ¬ (freshState sha ctx₁ tr iv conf now).confidence < c.cache_threshold :=
    not_lt.mpr hconf
  have hgate : c.gate_update (compute_context_hash sha ctx₁)
      (freshState sha ctx₁ tr iv conf now) = (true, c) :=
    gate_admit_below c _ _ hconf' hroom
  have hstep : (c.cache_reasoning sha ctx₁ tr iv conf now).2 =
      { c with working_memory := ainsert c.working_memory (compute_context_hash sha ctx₁) (freshState sha ctx₁ tr iv conf now) } := by
    simp only [ReasoningCache.cache_reasoning]
    rw [show c.gate_update (compute_context_hash sha ctx₁) { context_hash := compute_context_hash sha ctx₁, context_data := ctx₁, reasoning_trace := tr, intermediate_values := iv, confidence := conf, timestamp := now, success_count := 0, failure_count := 0 } = (true, c) from hgate]
    rfl
  have hhash : compute_context_hash sha ctx₂ = compute_context_hash sha ctx₁ := by
    rw [compute_context_hash, compute_context_hash,
      dumpsSorted_perm_invariant ctx₁ ctx₂ hperm hnd]
  refine ⟨?_, rfl⟩
  rw [hstep]
  simp only [ReasoningCache.retrieve_reasoning, hhash]
  rw [show alookup (ainsert c.working_memory (compute_context_hash sha ctx₁)
      (freshState sha ctx₁ tr iv conf now)) (compute_context_hash sha ctx₁) =
      some (freshState sha ctx₁ tr iv conf now) from alookup_ainsert_self _ _ _]
  rfl

/-- Witness for C5: cache a two-key context, retrieve it with its keys in
the other order and a Critic available; the hit is exact, from working
memory, with the identical trace and no Critic call. -/
theorem claim5_exact_hit_roundtrip_witness :
    List.Perm ctxP₁ ctxP₂ ∧ (ctxP₁.map Prod.fst).Nodup ∧
    defaultCache.cache_threshold ≤ Rat.divInt 9 10 ∧
    defaultCache.working_memory.length < defaultCache.wm_capacity ∧
    ((defaultCache.cache_reasoning idsha ctxP₁ ["s1"] [] (Rat.divInt 9 10) 0).2.retrieve_reasoning
        idsha ctxP₂ (Rat.divInt 7 10) (some noCritic)) =
      { result := some (freshState idsha ctxP₁ ["s1"] [] (Rat.divInt 9 10) 0)
        cache := { (defaultCache.cache_reasoning idsha ctxP₁ ["s1"] [] (Rat.divInt 9 10) 0).2 with
          cache_hits := (defaultCache.cache_reasoning idsha ctxP₁ ["s1"] []
            (Rat.divInt 9 10) 0).2.cache_hits + 1
          reasoning_steps_saved := (defaultCache.cache_reasoning idsha ctxP₁ ["s1"] []
            (Rat.divInt 9 10) 0).2.reasoning_steps_saved + (["s1"] : List String).length }
        criticInvoked := false
        path := .wmExact } := by
  refine ⟨List.Perm.swap ("b", Jval.jstr "y") ("a", Jval.jstr "x") [], by decide, by decide,
    by decide, ?_⟩
  exact (claim5_exact_hit_roundtrip idsha defaultCache ctxP₁ ctxP₂ ["s1"] [] (Rat.divInt 9 10)
    0 (Rat.divInt 7 10) (some noCritic)
    (List.Perm.swap ("b", Jval.jstr "y") ("a", Jval.jstr "x") []) (by decide) (by decide)
    (by decide)).1

/-! ## Claim 1 -/

/-- Counterexample to C1 as stated: from a fresh cache, cache `ctxA` with
confidence 0.5 (rejected, stored in episodic memory), then cache `ctxA`
again with confidence 0.9 (admitted to working memory with room to spare).
The hash of `ctxA` is now a key of BOTH tiers — the re-cache duplicated
rather than moved the entry, violating the exclusivity invariant on a
reachable state. -/
theorem claim1_counterexample :
    (alookup (runOps idsha defaultCache
        [CacheOp.cache ctxA ["s1"] [] (Rat.divInt 5 10) 0,
         CacheOp.cache ctxA ["s1"] [] (Rat.divInt 9 10) 1]).working_memory
        (compute_context_hash idsha ctxA)).isSome = true ∧
    (alookup (runOps idsha defaultCache
        [CacheOp.cache ctxA ["s1"] [] (Rat.divInt 5 10) 0,
         CacheOp.cache ctxA ["s1"] [] (Rat.divInt 9 10) 1]).episodic_memory
        (compute_context_hash idsha ctxA)).isSome = true := by
  exact ⟨by decide, by decide⟩

/-- C1 as amended: tier exclusivity (with dict key uniqueness and non-empty
working-memory keys) is preserved by `retrieve_reasoning` (including
promotions and their evictions), `update_outcome` and `extract_pattern`
unconditionally, and by `cache_reasoning` whenever the context hash is not
already resident in either tier — the counterexample shows the
re-cache-while-resident case genuinely duplicates, so the claim cannot hold
for it. -/
theorem claim1_amended_tier_exclusivity (sha : String → String)
    (hsha : ∀ s, sha s ≠ "") (c : ReasoningCache) (hwf : CacheWF c) :
    (∀ ctx thr f, CacheWF ((c.retrieve_reasoning sha ctx thr f).cache)) ∧
    (∀ h b, CacheWF (c.update_outcome h b)) ∧
    (∀ ty r, CacheWF ((c.extract_pattern ty r).2)) ∧
    (∀ ctx tr iv conf now,
      compute_context_hash sha ctx ∉ akeys c.working_memory →
      compute_context_hash sha ctx ∉ akeys c.episodic_memory →
      CacheWF ((c.cache_reasoning sha ctx tr iv conf now).2)) := by
  refine ⟨?_, ?_, ?_, ?_⟩
  · intro ctx thr f
    exact cachewf_retrieve_reasoning sha hsha c ctx thr f hwf
  · intro h b
    exact cachewf_update_outcome c h b hwf
  · intro ty r
    exact cachewf_extract_pattern c ty r hwf
  · intro ctx tr iv conf now hfw hfe
    exact cachewf_cache_reasoning sha hsha c ctx tr iv conf now hwf hfw hfe

/-- The concrete well-formed two-tier cache used by the C1 witness: one
admitted and one rejected entry, under the non-empty digest `shaNE`. -/
def cTwoTier : ReasoningCache :=
  runOps shaNE defaultCache
    [CacheOp.cache ctxA ["s1"] [] (Rat.divInt 9 10) 0,
     CacheOp.cache ctxB ["s2"] [] (Rat.divInt 5 10) 1]

/-- Witness for the amended C1 at a concrete well-formed two-tier cache. -/
theorem claim1_amended_tier_exclusivity_witness :
    (∀ s, shaNE s ≠ "") ∧ CacheWF cTwoTier ∧
    ((∀ ctx thr f, CacheWF ((cTwoTier.retrieve_reasoning shaNE ctx thr f).cache)) ∧
      (∀ h b, CacheWF (cTwoTier.update_outcome h b)) ∧
      (∀ ty r, CacheWF ((cTwoTier.extract_pattern ty r).2)) ∧
      (∀ ctx tr iv conf now,
        compute_context_hash shaNE ctx ∉ akeys cTwoTier.working_memory →
        compute_context_hash shaNE ctx ∉ akeys cTwoTier.episodic_memory →
        CacheWF ((cTwoTier.cache_reasoning shaNE ctx tr iv conf now).2))) := by
  refine ⟨shaNE_ne_empty, by decide, ?_⟩
  exact claim1_amended_tier_exclusivity shaNE shaNE_ne_empty cTwoTier (by decide)

/-! ## Claim 2 -/

theorem runCaches_append (sha : String → String) (l₁ l₂ : List CacheCall) :
    ∀ c : ReasoningCache, runCaches sha c (l₁ ++ l₂) = runCaches sha (runCaches sha c l₁) l₂ := by
  induction l₁ with
  | nil => exact fun c => rfl
  | cons cc tl ih =>
    intro c
    rw [List.cons_append, runCaches, runCaches]
    exact ih _

/-- Counterexample to C2 as stated: capacity 1, two distinct contexts cached
with the SAME above-threshold confidence 0.9 and no prior outcomes.  The
second candidate's value equals (so does not exceed) the resident minimum,
the gate rejects it, and the NEW state is routed to episodic memory: no
previously resident state is transferred out of working memory at all. -/
theorem claim2_counterexample :
    akeys (runOps idsha (ReasoningCache.init 1 (Rat.divInt 6 10) (Rat.divInt 19 20) "m")
      [CacheOp.cache ctxA ["s1"] [] (Rat.divInt 9 10) 0,
       CacheOp.cache ctxB ["s2"] [] (Rat.divInt 9 10) 1]).working_memory =
      [compute_context_hash idsha ctxA] ∧
    akeys (runOps idsha (ReasoningCache.init 1 (Rat.divInt 6 10) (Rat.divInt 19 20) "m")
      [CacheOp.cache ctxA ["s1"] [] (Rat.divInt 9 10) 0,
       CacheOp.cache ctxB ["s2"] [] (Rat.divInt 9 10) 1]).episodic_memory =
      [compute_context_hash idsha ctxB] ∧
    compute_context_hash idsha ctxA ≠ compute_context_hash idsha ctxB := by
  refine ⟨by decide, by decide, by decide⟩

/-- C2 as amended: from an empty cache of capacity `k`, caching `k`
admissible fresh contexts and then a `(k+1)`-st whose confidence strictly
exceeds at least one resident's (all success rates being the no-observation
0.5, value order is confidence order), exactly one previously resident state
— episodic memory holds precisely that one entry — is transferred out of
working memory, and retrieving that evicted context afterwards is a hit
found by the exact-hash lookup in episodic memory, not in working memory. -/
theorem claim2_amended_capacity_eviction (sha : String → String)
    (hsha : ∀ s, sha s ≠ "") (cap : Nat) (thr dr : ℚ) (vm : String)
    (firstCalls : List CacheCall) (lastCall : CacheCall) (thr' : ℚ) (f : Option Critic)
    (hk : firstCalls.length = cap)
    (hthr : ∀ cc ∈ firstCalls ++ [lastCall], thr < cc.confidence)
    (hnd : ((firstCalls ++ [lastCall]).map (CacheCall.hash sha)).Nodup)
    (hstrict : ∃ cc ∈ firstCalls, cc.confidence < lastCall.confidence) :
    ∃ cc ∈ firstCalls,
      (runCaches sha (ReasoningCache.init cap thr dr vm)
          (firstCalls ++ [lastCall])).episodic_memory = [(cc.hash sha, cc.state sha)] ∧
      cc.hash sha ∉ akeys (runCaches sha (ReasoningCache.init cap thr dr vm)
          (firstCalls ++ [lastCall])).working_memory ∧
      ((runCaches sha (ReasoningCache.init cap thr dr vm)
          (firstCalls ++ [lastCall])).retrieve_reasoning sha cc.context thr' f).result =
        some (cc.state sha) ∧
      ((runCaches sha (ReasoningCache.init cap thr dr vm)
          (firstCalls ++ [lastCall])).retrieve_reasoning sha cc.context thr' f).path =
        RetrievePath.emExact ∧
      ((runCaches sha (ReasoningCache.init cap thr dr vm)
          (firstCalls ++ [lastCall])).retrieve_reasoning sha cc.context thr' f).cache.cache_hits =
        (runCaches sha (ReasoningCache.init cap thr dr vm)
          (firstCalls ++ [lastCall])).cache_hits + 1 := by
  have hndfirst : (firstCalls.map (CacheCall.hash sha)).Nodup := by
    rw [List.map_append] at hnd
    exact (List.nodup_append.mp hnd).1
  have hdisjlast : ∀ cc ∈ firstCalls, cc.hash sha ≠ lastCall.hash sha := by
    intro cc hcc heq
    rw [List.map_append] at hnd
    exact (List.nodup_append.mp hnd).2.2 (List.mem_map_of_mem _ hcc)
      (by simp [heq])
  have hfill := runCaches_fill sha firstCalls (ReasoningCache.init cap thr dr vm) rfl
    (by simp [ReasoningCache.init, hk])
    (by intro cc hcc
        exact not_lt.mpr (le_of_lt (hthr cc (List.mem_append_left _ hcc))))
    (by simpa [ReasoningCache.init, akeys] using hndfirst)
  obtain ⟨hwmA, hemA, hcapA, hthrA, hhitsA, _⟩ := hfill
  rw [show ((ReasoningCache.init cap thr dr vm) : ReasoningCache).working_memory = [] from rfl,
    List.nil_append] at hwmA
  have hkeysA : akeys (runCaches sha (ReasoningCache.init cap thr dr vm)
      firstCalls).working_memory = firstCalls.map (CacheCall.hash sha) := by
    rw [hwmA, akeys, List.map_map]
    rfl
  have hndA : (akeys (runCaches sha (ReasoningCache.init cap thr dr vm)
      firstCalls).working_memory).Nodup := by
    rw [hkeysA]
    exact hndfirst
  have hneA : "" ∉ akeys (runCaches sha (ReasoningCache.init cap thr dr vm)
      firstCalls).working_memory := by
    rw [hkeysA]
    intro hmem
    obtain ⟨cc, _, hcc⟩ := List.mem_map.mp hmem
    exact hash_ne_empty sha hsha cc.context hcc
  have hfullA : (runCaches sha (ReasoningCache.init cap thr dr vm)
      firstCalls).wm_capacity ≤ (runCaches sha (ReasoningCache.init cap thr dr vm)
      firstCalls).working_memory.length := by
    rw [hwmA, List.length_map, hk, hcapA]
    exact Nat.le.refl
  have hconfL : ¬ (lastCall.state sha).confidence < (runCaches sha
      (ReasoningCache.init cap thr dr vm) firstCalls).cache_threshold := by
    rw [hthrA]
    exact not_lt.mpr (le_of_lt (hthr lastCall (List.mem_append_right _ (List.mem_cons_self _ _))))
  obtain ⟨cc₀, hcc₀m, hcc₀lt⟩ := hstrict
  have hq : (cc₀.hash sha, cc₀.state sha) ∈ (runCaches sha
      (ReasoningCache.init cap thr dr vm) firstCalls).working_memory := by
    rw [hwmA]
    exact List.mem_map_of_mem _ hcc₀m
  have hval : stateValue (cc₀.state sha) < stateValue (lastCall.state sha) := by
    rw [show stateValue (cc₀.state sha) = cc₀.confidence * Rat.divInt 1 2 from
        fresh_stateValue sha cc₀.context cc₀.reasoning_trace cc₀.intermediate_values
          cc₀.confidence cc₀.now,
      show stateValue (lastCall.state sha) = lastCall.confidence * Rat.divInt 1 2 from
        fresh_stateValue sha lastCall.context lastCall.reasoning_trace
          lastCall.intermediate_values lastCall.confidence lastCall.now]
    exact fresh_value_lt _ _ hcc₀lt
  obtain ⟨l₁, p, l₂, hdec, hleft, hright, hplt, hgate⟩ :=
    gate_full_admit (runCaches sha (ReasoningCache.init cap thr dr vm) firstCalls)
      (lastCall.hash sha) (lastCall.state sha) hconfL hfullA hndA hneA
      ⟨(cc₀.hash sha, cc₀.state sha), hq, hval⟩
  have hpmem : p ∈ (runCaches sha (ReasoningCache.init cap thr dr vm)
      firstCalls).working_memory := by
    rw [hdec]
    exact List.mem_append_right _ (List.mem_cons_self _ _)
  obtain ⟨ccE, hccEm, hccEp⟩ := by
    rw [hwmA] at hpmem
    exact List.mem_map.mp hpmem
  have hsplit : runCaches sha (ReasoningCache.init cap thr dr vm) (firstCalls ++ [lastCall]) =
      (ReasoningCache.cache_reasoning sha
        (runCaches sha (ReasoningCache.init cap thr dr vm) firstCalls)
        lastCall.context lastCall.reasoning_trace lastCall.intermediate_values
        lastCall.confidence lastCall.now).2 := by
    rw [runCaches_append]
    rfl
  have hstep : (ReasoningCache.cache_reasoning sha
      (runCaches sha (ReasoningCache.init cap thr dr vm) firstCalls)
      lastCall.context lastCall.reasoning_trace lastCall.intermediate_values
      lastCall.confidence lastCall.now).2 =
      { (runCaches sha (ReasoningCache.init cap thr dr vm) firstCalls) with
        working_memory := ainsert (l₁ ++ l₂) (lastCall.hash sha) (lastCall.state sha)
        episodic_memory := ainsert (runCaches sha (ReasoningCache.init cap thr dr vm)
          firstCalls).episodic_memory p.1 p.2 } := by
    simp only [ReasoningCache.cache_reasoning]
    rw [show (runCaches sha (ReasoningCache.init cap thr dr vm) firstCalls).gate_update (compute_context_hash sha lastCall.context) { context_hash := compute_context_hash sha lastCall.context, context_data := lastCall.context, reasoning_trace := lastCall.reasoning_trace, intermediate_values := lastCall.intermediate_values, confidence := lastCall.confidence, timestamp := lastCall.now, success_count := 0, failure_count := 0 } = (true, { (runCaches sha (ReasoningCache.init cap thr dr vm) firstCalls) with working_memory := l₁ ++ l₂, episodic_memory := ainsert (runCaches sha (ReasoningCache.init cap thr dr vm) firstCalls).episodic_memory p.1 p.2 }) from hgate]
    rfl
  have hfin := hsplit.trans hstep
  have hpne : p.1 ∉ akeys (ainsert (l₁ ++ l₂) (lastCall.hash sha) (lastCall.state sha)) := by
    intro hmem
    rcases (mem_akeys_ainsert _ _ _ _).mp hmem with hmem | hmem
    · have hnd' := hndA
      rw [hdec, akeys_append, akeys_cons, List.nodup_append] at hnd'
      rw [akeys_append, List.mem_append] at hmem
      rcases hmem with hmem | hmem
      · exact hnd'.2.2 hmem (List.mem_cons_self _ _)
      · exact (List.nodup_cons.mp hnd'.2.1).1 hmem
    · rw [← hccEp] at hmem
      exact hdisjlast ccE hccEm hmem
  have hemfin : (runCaches sha (ReasoningCache.init cap thr dr vm)
      (firstCalls ++ [lastCall])).episodic_memory = [(p.1, p.2)] := by
    rw [hfin]
    show ainsert (runCaches sha (ReasoningCache.init cap thr dr vm)
      firstCalls).episodic_memory p.1 p.2 = [(p.1, p.2)]
    rw [hemA]
    rfl
  have hwmlook : alookup (runCaches sha (ReasoningCache.init cap thr dr vm)
      (firstCalls ++ [lastCall])).working_memory p.1 = none := by
    rw [hfin]
    exact (alookup_eq_none_iff _ _).mpr hpne
  have hemlook : alookup (runCaches sha (ReasoningCache.init cap thr dr vm)
      (firstCalls ++ [lastCall])).episodic_memory p.1 = some p.2 := by
    rw [hemfin]
    simp [alookup]
  have hwmfin : (runCaches sha (ReasoningCache.init cap thr dr vm)
      (firstCalls ++ [lastCall])).working_memory =
      ainsert (l₁ ++ l₂) (lastCall.hash sha) (lastCall.state sha) := by
    rw [hfin]
  have hccEhash : CacheCall.hash sha ccE = p.1 := congrArg Prod.fst hccEp
  refine ⟨ccE, hccEm, ?_, ?_, ?_, ?_, ?_⟩
  · rw [hemfin, ← hccEp]
  · rw [hwmfin, hccEhash]
    exact hpne
  all_goals {
    have hretr : (runCaches sha (ReasoningCache.init cap thr dr vm)
        (firstCalls ++ [lastCall])).retrieve_reasoning sha ccE.context thr' f =
        { result := some p.2
          cache := { (runCaches sha (ReasoningCache.init cap thr dr vm)
              (firstCalls ++ [lastCall])) with
            cache_hits := (runCaches sha (ReasoningCache.init cap thr dr vm)
              (firstCalls ++ [lastCall])).cache_hits + 1
            reasoning_steps_saved := (runCaches sha (ReasoningCache.init cap thr dr vm)
              (firstCalls ++ [lastCall])).reasoning_steps_saved +
                p.2.reasoning_trace.length }
          criticInvoked := false
          path := RetrievePath.emExact } := by
      have hhash : compute_context_hash sha ccE.context = p.1 := by
        rw [← hccEp]
        rfl
      simp only [ReasoningCache.retrieve_reasoning, hhash, hwmlook, hemlook]
      have hrate : ¬ Rat.divInt 7 10 < p.2.get_success_rate := by
        rw [← hccEp]
        show ¬ Rat.divInt 7 10 < (ccE.state sha).get_success_rate
        rw [show (ccE.state sha).get_success_rate = Rat.divInt 1 2 from rfl]
        decide
      rw [if_neg hrate]
      try rfl
    rw [hretr]
    try rw [← hccEp]
    try rfl
  }

def callA : CacheCall where
  context := ctxA
  reasoning_trace := ["s1"]
  intermediate_values := []
  confidence := Rat.divInt 7 10
  now := 0

def callB : CacheCall where
  context := ctxB
  reasoning_trace := ["s2"]
  intermediate_values := []
  confidence := Rat.divInt 9 10
  now := 1

/-- Witness for the amended C2: capacity 1, one resident of confidence 0.7,
then a 0.9-confidence call displaces it into episodic memory, where it is
still an exact-hash hit. -/
theorem claim2_amended_capacity_eviction_witness :
    (∀ s, shaNE s ≠ "") ∧
    ([callA] : List CacheCall).length = 1 ∧
    (∀ cc ∈ [callA] ++ [callB], Rat.divInt 6 10 < cc.confidence) ∧
    ((([callA] ++ [callB]).map (CacheCall.hash shaNE)).Nodup) ∧
    (∃ cc ∈ [callA], cc.confidence < callB.confidence) ∧
    (∃ cc ∈ [callA],
      (runCaches shaNE (ReasoningCache.init 1 (Rat.divInt 6 10) (Rat.divInt 19 20) "m")
          ([callA] ++ [callB])).episodic_memory = [(cc.hash shaNE, cc.state shaNE)] ∧
      cc.hash shaNE ∉ akeys (runCaches shaNE
          (ReasoningCache.init 1 (Rat.divInt 6 10) (Rat.divInt 19 20) "m")
          ([callA] ++ [callB])).working_memory ∧
      ((runCaches shaNE (ReasoningCache.init 1 (Rat.divInt 6 10) (Rat.divInt 19 20) "m")
          ([callA] ++ [callB])).retrieve_reasoning shaNE cc.context (Rat.divInt 7 10)
          none).result = some (cc.state shaNE) ∧
      ((runCaches shaNE (ReasoningCache.init 1 (Rat.divInt 6 10) (Rat.divInt 19 20) "m")
          ([callA] ++ [callB])).retrieve_reasoning shaNE cc.context (Rat.divInt 7 10)
          none).path = RetrievePath.emExact ∧
      ((runCaches shaNE (ReasoningCache.init 1 (Rat.divInt 6 10) (Rat.divInt 19 20) "m")
          ([callA] ++ [callB])).retrieve_reasoning shaNE cc.context (Rat.divInt 7 10)
          none).cache.cache_hits = (runCaches shaNE
          (ReasoningCache.init 1 (Rat.divInt 6 10) (Rat.divInt 19 20) "m")
          ([callA] ++ [callB])).cache_hits + 1) := by
  refine ⟨shaNE_ne_empty, rfl, by decide, by decide, ?_, ?_⟩
  · exact ⟨callA, List.mem_cons_self _ _, by decide⟩
  · exact claim2_amended_capacity_eviction shaNE shaNE_ne_empty 1 (Rat.divInt 6 10)
      (Rat.divInt 19 20) "m" [callA] callB (Rat.divInt 7 10) none rfl (by decide) (by decide)
      ⟨callA, List.mem_cons_self _ _, by decide⟩
